import Mathlib

/-!
Verification of the chapter-detection-and-extraction core of
calibre-splitter-pro against its natural-language specification.

The Python sources are shallowly embedded:
  * `src/core/data_models.py`    → the enumerations and `Chapter` structure;
  * `src/processors/pdf_processor.py`  → `PdfProcessor.*`;
  * `src/processors/epub_processor.py` → `EpubProcessor.*`;
  * `src/utils/file_utils.py`    → `FileUtils.*`.
Machine integers are modelled as `Int`/`Nat` (Python integers are unbounded),
Python `Optional[int]` as `Option Int`, Python floats that are only ever
assigned and compared (the confidence scores) as `Rat`, and fallible code as
`Option`/`Except`.  Filesystem state is passed explicitly as a decidable
existence oracle, and the Unicode NFKC normalisation step of
`sanitize_filename` is a function parameter (`nf`), since it is external
library behaviour; concrete evaluations instantiate it with `id`, which is
exact on ASCII inputs (NFKC fixes every ASCII string).
-/

namespace CalibreSplitter

/-- Mirrors `ProcessingStatus` in `src/core/data_models.py`. -/
inductive ProcessingStatus where
  | pending
  | running
  | success
  | error
  | cancelled
deriving DecidableEq, Repr

/-- Mirrors `FileType` in `src/core/data_models.py`. -/
inductive FileType where
  | pdf
  | epub
  | unknown
deriving DecidableEq, Repr

/-- Mirrors `OutputFormat` in `src/core/data_models.py`:
`SAME_AS_INPUT | PDF | EPUB`. -/
inductive OutputFormat where
  | same_as_input
  | pdf
  | epub
deriving DecidableEq, Repr

/-- Mirrors `ChapterDetectionMethod` in `src/core/data_models.py`. -/
inductive ChapterDetectionMethod where
  | auto
  | manual
  | xpath
deriving DecidableEq, Repr

/-- Mirrors the `Chapter` dataclass in `src/core/data_models.py`.
`start_page`/`end_page` are Python `Optional[int]`; the confidence score is a
float that the code only assigns and compares, modelled exactly as `Rat`. -/
structure Chapter where
  chapter_number : Nat
  title : String
  start_page : Option Int
  end_page : Option Int
  xpath : String
  detected_method : ChapterDetectionMethod
  confidence_score : Rat
  output_file_path : String
  split_status : ProcessingStatus
deriving DecidableEq, Repr

/-- Mirrors the `Chapter.is_valid_pdf_chapter` property
(`src/core/data_models.py`, lines 177-185): both pages present,
`start_page <= end_page` and `start_page > 0`. -/
def Chapter.is_valid_pdf_chapter (c : Chapter) : Bool :=
  match c.start_page, c.end_page with
  | some s, some e => decide (s ≤ e) && decide (0 < s)
  | _, _ => false

/-- Mirrors the `Chapter.is_valid_epub_chapter` property
(`src/core/data_models.py`, lines 187-190): `bool(self.xpath or self.html_tag)`;
the embedded chapters never set `html_tag`, so this is `xpath != ""`. -/
def Chapter.is_valid_epub_chapter (c : Chapter) : Bool :=
  c.xpath ≠ ""

/-- Convenience constructor used only by concrete test inputs: a freshly
detected PDF chapter as built by `_extract_chapters_from_outline`
(start page = end page = `s`, to be adjusted by boundary resolution). -/
def mkPageChapter (s : Int) : Chapter :=
  { chapter_number := 0
    title := ""
    start_page := some s
    end_page := some s
    xpath := ""
    detected_method := ChapterDetectionMethod.auto
    confidence_score := 9 / 10
    output_file_path := ""
    split_status := ProcessingStatus.pending }

namespace PdfProcessor

/-- Body of the loop of `_set_chapter_end_pages`
(`src/processors/pdf_processor.py`, lines 265-277): each chapter except the
last gets `end_page = next chapter's start_page - 1`, the last gets
`end_page = total_pages`, and whenever the new `end_page` is below
`start_page` it is clamped up to `start_page`.  The `getD 0` reads are only
reached under the `isSome` guard of `set_chapter_end_pages`, mirroring that
the Python code would raise a `TypeError` on a missing `start_page`. -/
def setEndAux (total_pages : Int) : List Chapter → List Chapter
  | [] => []
  | [c] =>
      let s := c.start_page.getD 0
      let e := total_pages
      [{ c with end_page := some (if e < s then s else e) }]
  | c :: next :: rest =>
      let s := c.start_page.getD 0
      let e := (next.start_page.getD 0) - 1
      { c with end_page := some (if e < s then s else e) } :: setEndAux total_pages (next :: rest)

/-- Mirrors `_set_chapter_end_pages` (`src/processors/pdf_processor.py`,
lines 265-277).  Returns `none` when some chapter lacks a `start_page`
(the Python code would raise a `TypeError` there). -/
def set_chapter_end_pages (chapters : List Chapter) (total_pages : Int) :
    Option (List Chapter) :=
  if chapters.all (fun c => c.start_page.isSome) then
    some (setEndAux total_pages chapters)
  else
    none

/-- Mirrors `_normalize_chapter_numbers` (`src/processors/pdf_processor.py`,
lines 279-282): `chapter.chapter_number = idx + 1` in list order, with the
running index made explicit. -/
def normalizeAux (n : Nat) : List Chapter → List Chapter
  | [] => []
  | c :: cs => { c with chapter_number := n } :: normalizeAux (n + 1) cs

/-- Mirrors `_normalize_chapter_numbers` (`src/processors/pdf_processor.py`,
lines 279-282). -/
def normalize_chapter_numbers (chapters : List Chapter) : List Chapter :=
  normalizeAux 1 chapters

end PdfProcessor

namespace EpubProcessor

/-- Mirrors `_normalize_chapter_numbers` (`src/processors/epub_processor.py`,
lines 311-314), whose body is identical to the PDF variant. -/
def normalizeAux (n : Nat) : List Chapter → List Chapter
  | [] => []
  | c :: cs => { c with chapter_number := n } :: normalizeAux (n + 1) cs

/-- Mirrors `_normalize_chapter_numbers` (`src/processors/epub_processor.py`,
lines 311-314). -/
def normalize_chapter_numbers (chapters : List Chapter) : List Chapter :=
  normalizeAux 1 chapters

end EpubProcessor

/-- Decidable check for the first conjunct of claim C1 on a resolved chapter
list: `start_page[i] <= end_page[i]` for every i. -/
def startLeEndOk (chapters : List Chapter) : Bool :=
  chapters.all (fun c => decide (c.start_page.getD 0 ≤ c.end_page.getD 0))

/-- Decidable check for the second conjunct of claim C1 on a resolved chapter
list: `end_page[i] + 1 == start_page[i+1]` for all i < N-1. -/
def adjacentOk : List Chapter → Bool
  | [] => true
  | [_] => true
  | c :: next :: rest =>
      (c.end_page.getD 0 + 1 == next.start_page.getD 0) && adjacentOk (next :: rest)

/-- Decidable check for the third conjunct of claim C1 on a resolved chapter
list: `end_page[N-1] == total_pages`. -/
def lastEndOk (chapters : List Chapter) (total_pages : Int) : Bool :=
  match chapters.getLast? with
  | some c => c.end_page == some total_pages
  | none => true

/-- The three-part boundary property claim C1 asserts of every resolved PDF
chapter list. -/
def c1BoundariesOk (chapters : List Chapter) (total_pages : Int) : Bool :=
  startLeEndOk chapters && adjacentOk chapters && lastEndOk chapters total_pages

/-- Decidable check: detected start pages are strictly increasing down the
list. -/
def strictIncStarts : List Chapter → Bool
  | [] => true
  | [_] => true
  | c :: next :: rest =>
      decide (c.start_page.getD 0 < next.start_page.getD 0) && strictIncStarts (next :: rest)

/-- Decidable check: the last detected start page does not exceed the total
page count. -/
def lastStartLe (chapters : List Chapter) (total_pages : Int) : Bool :=
  match chapters.getLast? with
  | some c => decide (c.start_page.getD 0 ≤ total_pages)
  | none => true


theorem setEndAux_startLe (t : Int) (cs : List Chapter) :
    startLeEndOk (PdfProcessor.setEndAux t cs) = true := by
  induction cs with
  | nil => rfl
  | cons c cs ih =>
    cases cs with
    | nil =>
      simp only [PdfProcessor.setEndAux, startLeEndOk, List.all_cons, List.all_nil,
        Bool.and_true, Option.getD_some, decide_eq_true_eq]
      split <;> omega
    | cons next rest =>
      simp only [PdfProcessor.setEndAux, startLeEndOk, List.all_cons,
        Option.getD_some, decide_eq_true_eq, Bool.and_eq_true] at ih ⊢
      refine ⟨?_, ih⟩
      split <;> omega

theorem setEndAux_boundaries (t : Int) (cs : List Chapter)
    (hinc : strictIncStarts cs = true) (hlast : lastStartLe cs t = true) :
    adjacentOk (PdfProcessor.setEndAux t cs) = true ∧
      lastEndOk (PdfProcessor.setEndAux t cs) t = true := by
  induction cs with
  | nil => exact ⟨rfl, rfl⟩
  | cons c cs ih =>
    cases cs with
    | nil =>
      simp only [lastStartLe, List.getLast?_singleton, decide_eq_true_eq] at hlast
      have hnc : ¬ t < c.start_page.getD 0 := by omega
      simp [PdfProcessor.setEndAux, adjacentOk, lastEndOk, hnc]
    | cons next rest =>
      simp only [strictIncStarts, Bool.and_eq_true, decide_eq_true_eq] at hinc
      have hlast' : lastStartLe (next :: rest) t = true := by
        simpa [lastStartLe, List.getLast?_cons_cons] using hlast
      obtain ⟨hAdj, hLast⟩ := ih hinc.2 hlast'
      have hnc : ¬ (next.start_page.getD 0 - 1) < c.start_page.getD 0 := by
        have := hinc.1
        omega
      constructor
      · cases rest with
        | nil =>
          simp only [PdfProcessor.setEndAux, adjacentOk, hnc, if_false,
            Option.getD_some, Bool.and_eq_true, beq_iff_eq] at hAdj ⊢
          refine ⟨by omega, hAdj⟩
        | cons r2 rest2 =>
          simp only [PdfProcessor.setEndAux, adjacentOk, hnc, if_false,
            Option.getD_some, Bool.and_eq_true, beq_iff_eq] at hAdj ⊢
          refine ⟨by omega, hAdj⟩
      · cases rest with
        | nil =>
          simpa [PdfProcessor.setEndAux, lastEndOk, List.getLast?_cons_cons] using hLast
        | cons r2 rest2 =>
          simpa [PdfProcessor.setEndAux, lastEndOk, List.getLast?_cons_cons] using hLast

/-- C1 (corrected): the claim asserts all three boundary properties for
*every* PDF chapter list, but the clamp `end_page = start_page` (taken e.g.
for duplicate-page detections) breaks the adjacency property
`end_page[i] + 1 == start_page[i+1]`.  Two chapters both detected at start
page 3 of a 10-page document resolve to `end_page[0] = 3` (clamped), and
`3 + 1 ≠ 3 = start_page[1]`. -/
theorem C1_counterexample :
    (PdfProcessor.set_chapter_end_pages [mkPageChapter 3, mkPageChapter 3] 10).map
      (fun rs => c1BoundariesOk rs 10) = some false := by
  rfl

/-- C1 (amended): after boundary resolution `start_page[i] ≤ end_page[i]`
always holds; and when the detected start pages are strictly increasing and
the last start page is within the total page count (so the clamp never
fires), the full claimed property holds: adjacency
`end_page[i] + 1 == start_page[i+1]` and `end_page[N-1] == total_pages`. -/
theorem C1_boundary_resolution (cs rs : List Chapter) (total : Int)
    (hres : PdfProcessor.set_chapter_end_pages cs total = some rs) :
    startLeEndOk rs = true ∧
      (strictIncStarts cs = true → lastStartLe cs total = true →
        c1BoundariesOk rs total = true) := by
  have hrs : rs = PdfProcessor.setEndAux total cs := by
    unfold PdfProcessor.set_chapter_end_pages at hres
    split at hres
    · exact (Option.some_inj.mp hres).symm
    · exact absurd hres (by simp)
  subst hrs
  refine ⟨setEndAux_startLe total cs, fun hinc hlast => ?_⟩
  obtain ⟨hAdj, hLast⟩ := setEndAux_boundaries total cs hinc hlast
  simp [c1BoundariesOk, setEndAux_startLe, hAdj, hLast]

/-- Witness for C1: spec Scenario A — bookmarks at pages 1, 10, 20 of a
25-page document resolve to ranges (1-9), (10-19), (20-25) and satisfy all
three boundary properties. -/
theorem C1_boundary_resolution_witness :
    startLeEndOk (PdfProcessor.setEndAux 25 [mkPageChapter 1, mkPageChapter 10, mkPageChapter 20]) = true ∧
      c1BoundariesOk (PdfProcessor.setEndAux 25 [mkPageChapter 1, mkPageChapter 10, mkPageChapter 20]) 25 = true := by
  have h := C1_boundary_resolution [mkPageChapter 1, mkPageChapter 10, mkPageChapter 20]
    (PdfProcessor.setEndAux 25 [mkPageChapter 1, mkPageChapter 10, mkPageChapter 20]) 25 (by rfl)
  exact ⟨h.1, h.2 (by rfl) (by rfl)⟩

theorem normalizeAux_map_pdf (n : Nat) (cs : List Chapter) :
    (PdfProcessor.normalizeAux n cs).map (fun c => c.chapter_number) =
      List.range' n cs.length := by
  induction cs generalizing n with
  | nil => rfl
  | cons c cs ih => simp [PdfProcessor.normalizeAux, List.range'_succ, ih]

theorem normalizeAux_map_epub (n : Nat) (cs : List Chapter) :
    (EpubProcessor.normalizeAux n cs).map (fun c => c.chapter_number) =
      List.range' n cs.length := by
  induction cs generalizing n with
  | nil => rfl
  | cons c cs ih => simp [EpubProcessor.normalizeAux, List.range'_succ, ih]

/-- C2 (confirmed): after `_normalize_chapter_numbers` (both the PDF and the
EPUB processor), the `chapter_number` values are exactly `1, 2, ..., N` in
list order — `List.range' 1 N` — for any input list of any length and any
initial numbering (contiguous, reversed or sparse). -/
theorem C2_normalized_numbers (cs : List Chapter) :
    (PdfProcessor.normalize_chapter_numbers cs).map (fun c => c.chapter_number) =
        List.range' 1 cs.length ∧
      (EpubProcessor.normalize_chapter_numbers cs).map (fun c => c.chapter_number) =
        List.range' 1 cs.length :=
  ⟨normalizeAux_map_pdf 1 cs, normalizeAux_map_epub 1 cs⟩

namespace FileUtils

/-- Mirrors `pathlib.PurePath.suffix` and `.stem` for a file *name* (no path
separators): with `i = name.rfind('.')`, the name splits into
`(name[:i], name[i:])` when `0 < i < len(name) - 1`, and into `(name, "")`
otherwise.  Computed via the run of non-dot characters at the end of the
name: `i = length - 1 - revTail.length`, so `0 < i` iff
`revTail.length + 1 < length` and `i < length - 1` iff `0 < revTail.length`. -/
def pySplitExt (l : List Char) : List Char × List Char :=
  let revTail := l.reverse.takeWhile (fun c => c != '.')
  if revTail.length + 1 < l.length ∧ 0 < revTail.length then
    (l.take (l.length - 1 - revTail.length), l.drop (l.length - 1 - revTail.length))
  else
    (l, [])

/-- A filesystem path as consumed by `ensure_unique_filename`: the parent
directory (opaque) and the file name, mirroring `filepath.parent` and
`filepath.name`. -/
structure FsPath where
  parent : String
  name : String
deriving DecidableEq, Repr

/-- Mirrors `filepath.stem` as used in `ensure_unique_filename`. -/
def FsPath.stem (p : FsPath) : String :=
  String.mk (pySplitExt p.name.toList).1

/-- Mirrors `filepath.suffix` as used in `ensure_unique_filename`. -/
def FsPath.sfx (p : FsPath) : String :=
  String.mk (pySplitExt p.name.toList).2

/-- The candidate name `"{original_stem} ({counter}){suffix}"` built by each
iteration of the `while` loop of `ensure_unique_filename`
(`src/utils/file_utils.py`, line 143). -/
def euName (stem sfx : String) (counter : Nat) : String :=
  stem ++ " (" ++ toString counter ++ ")" ++ sfx

/-- The time-based fallback name `"{original_stem}_{timestamp}{suffix}"`
(`src/utils/file_utils.py`, line 155). -/
def euTimeName (stem sfx : String) (ts : Nat) : String :=
  stem ++ "_" ++ toString ts ++ sfx

/-- The `while True` loop of `ensure_unique_filename`
(`src/utils/file_utils.py`, lines 142-156): try `"{stem} (counter){suffix}"`;
return it if it does not exist; otherwise increment, and once the counter
exceeds 9999 return the time-based name instead.  `ex` is the filesystem
existence oracle (`Path.exists`), `ts` the value of `int(time.time())`. -/
def euLoop (ex : FsPath → Bool) (parent stem sfx : String) (ts : Nat)
    (counter : Nat) : FsPath :=
  let cand : FsPath := FsPath.mk parent (euName stem sfx counter)
  if ex cand then
    if 9999 < counter + 1 then
      FsPath.mk parent (euTimeName stem sfx ts)
    else
      euLoop ex parent stem sfx ts (counter + 1)
  else
    cand
termination_by 10000 - counter
decreasing_by simp_all; omega

/-- Mirrors `ensure_unique_filename` (`src/utils/file_utils.py`,
lines 124-156). -/
def ensure_unique_filename (ex : FsPath → Bool) (ts : Nat) (filepath : FsPath) :
    FsPath :=
  if ex filepath then
    euLoop ex filepath.parent filepath.stem filepath.sfx ts 1
  else
    filepath

end FileUtils

open FileUtils

theorem euLoop_eq (ex : FsPath → Bool) (parent stem sfx : String) (ts k : Nat) :
    euLoop ex parent stem sfx ts k =
      if ex (FsPath.mk parent (euName stem sfx k)) then
        if 9999 < k + 1 then
          FsPath.mk parent (euTimeName stem sfx ts)
        else
          euLoop ex parent stem sfx ts (k + 1)
      else
        FsPath.mk parent (euName stem sfx k) := by
  rw [euLoop]

theorem euLoop_finds (ex : FsPath → Bool) (parent stem sfx : String) (ts : Nat) :
    ∀ d k n, 1 ≤ k → k ≤ n → n ≤ 9999 → n - k = d →
      ex (FsPath.mk parent (euName stem sfx n)) = false →
      (∀ m, k ≤ m → m < n → ex (FsPath.mk parent (euName stem sfx m)) = true) →
      euLoop ex parent stem sfx ts k = FsPath.mk parent (euName stem sfx n) := by
  intro d
  induction d with
  | zero =>
    intro k n hk hkn hn hd hfree _
    have hkn' : k = n := by omega
    subst hkn'
    rw [euLoop_eq, hfree]
    rfl
  | succ d ih =>
    intro k n hk hkn hn hd hfree hbusy
    have hklt : k < n := by omega
    have hbk : ex (FsPath.mk parent (euName stem sfx k)) = true :=
      hbusy k (le_refl k) hklt
    rw [euLoop_eq, hbk]
    have hsmall : ¬ 9999 < k + 1 := by omega
    rw [if_neg hsmall]
    exact ih (k + 1) n (by omega) (by omega) hn (by omega) hfree
      (fun m hm1 hm2 => hbusy m (by omega) hm2)

theorem euLoop_exhausts (ex : FsPath → Bool) (parent stem sfx : String) (ts : Nat) :
    ∀ d k, 1 ≤ k → k ≤ 9999 → 9999 - k = d →
      (∀ m, k ≤ m → m ≤ 9999 → ex (FsPath.mk parent (euName stem sfx m)) = true) →
      euLoop ex parent stem sfx ts k = FsPath.mk parent (euTimeName stem sfx ts) := by
  intro d
  induction d with
  | zero =>
    intro k hk h9 hd hbusy
    have hk9 : k = 9999 := by omega
    subst hk9
    rw [euLoop_eq, hbusy 9999 (le_refl 9999) (by omega)]
    simp
  | succ d ih =>
    intro k hk h9 hd hbusy
    have hlt : ¬ 9999 < k + 1 := by omega
    rw [euLoop_eq, hbusy k (le_refl k) h9, if_neg hlt]
    exact ih (k + 1) (by omega) (by omega) (by omega)
      (fun m hm1 hm2 => hbusy m (by omega) hm2)

/-- C5 (confirmed): `ensure_unique_filename` returns its argument unchanged
when the path does not exist; when it exists, it returns the candidate named
`"{original stem} (n){suffix}"` for the smallest unused n in 1..9999, and
that returned path does not exist; and when all of n = 1..9999 exist, it
returns the time-suffixed name `"{stem}_{timestamp}{suffix}"` instead of
continuing to increment. -/
theorem C5_ensure_unique (ex : FsPath → Bool) (ts : Nat) (p : FsPath) :
    (ex p = false → FileUtils.ensure_unique_filename ex ts p = p) ∧
      (∀ n, ex p = true → 1 ≤ n → n ≤ 9999 →
        ex (FsPath.mk p.parent (euName p.stem p.sfx n)) = false →
        (∀ m, 1 ≤ m → m < n → ex (FsPath.mk p.parent (euName p.stem p.sfx m)) = true) →
        FileUtils.ensure_unique_filename ex ts p =
            FsPath.mk p.parent (euName p.stem p.sfx n) ∧
          ex (FileUtils.ensure_unique_filename ex ts p) = false) ∧
      (ex p = true →
        (∀ m, 1 ≤ m → m ≤ 9999 → ex (FsPath.mk p.parent (euName p.stem p.sfx m)) = true) →
        FileUtils.ensure_unique_filename ex ts p =
          FsPath.mk p.parent (euTimeName p.stem p.sfx ts)) := by
  refine ⟨fun hfree => ?_, fun n hex h1 h9 hfree hbusy => ?_, fun hex hbusy => ?_⟩
  · unfold FileUtils.ensure_unique_filename
    rw [hfree]
    rfl
  · have h := euLoop_finds ex p.parent p.stem p.sfx ts (n - 1) 1 n (le_refl 1) h1 h9 (by omega) hfree
      (fun m hm1 hm2 => hbusy m hm1 hm2)
    unfold FileUtils.ensure_unique_filename
    rw [hex, if_pos rfl, h]
    exact ⟨rfl, hfree⟩
  · unfold FileUtils.ensure_unique_filename
    rw [hex, if_pos rfl]
    exact euLoop_exhausts ex p.parent p.stem p.sfx ts 9998 1 (by omega) (by omega)
      rfl (fun m hm1 hm2 => hbusy m hm1 hm2)

/-- Filesystem oracle for the C5 witness: exactly `01_Intro.epub` exists in
the output directory (spec Scenario D). -/
def exDemo (q : FsPath) : Bool :=
  q.name == "01_Intro.epub"

/-- The colliding candidate path of the C5 witness. -/
def pDemo : FsPath :=
  FsPath.mk "out" "01_Intro.epub"

/-- Witness for C5: with `01_Intro.epub` already present, the resolver
returns `01_Intro (1).epub` (spec Scenario D). -/
theorem C5_ensure_unique_witness :
    FileUtils.ensure_unique_filename exDemo 0 pDemo = FsPath.mk "out" "01_Intro (1).epub" := by
  have h := (C5_ensure_unique exDemo 0 pDemo).2.1 1 (by decide) (by decide) (by decide)
    (by decide) (by intro m hm1 hm2; omega)
  rw [h.1]
  decide

namespace FileUtils

/-- The character class `[\n\r\t\f\v]` removed first by `sanitize_filename`
(`src/utils/file_utils.py`, line 45). -/
def isCtrlWs (c : Char) : Bool :=
  c == '\n' || c == '\r' || c == '\t' || c == '\x0c' || c == '\x0b'

/-- Python's `\s` character class for `str` patterns (and `str.strip()` with
no argument): ASCII whitespace, the file/group/record/unit separators, and
the Unicode whitespace code points. -/
def isPySpace (c : Char) : Bool :=
  let n := c.toNat
  (decide (9 ≤ n) && decide (n ≤ 13)) || (decide (28 ≤ n) && decide (n ≤ 31)) ||
    n == 32 || n == 133 || n == 160 || n == 5760 ||
    (decide (8192 ≤ n) && decide (n ≤ 8202)) ||
    n == 8232 || n == 8233 || n == 8239 || n == 8287 || n == 12288

/-- The class `INVALID_FILENAME_CHARS = r'[<>:"/\\|?*\n\r\t]'` of
`src/utils/file_utils.py`, line 16. -/
def isInvalidChar (c : Char) : Bool :=
  c == '<' || c == '>' || c == ':' || c == '"' || c == '/' || c == '\\' ||
    c == '|' || c == '?' || c == '*' || c == '\n' || c == '\r' || c == '\t'

/-- A single underscore, the default replacement token. -/
def isUnd (c : Char) : Bool :=
  c == '_'

/-- The strip set `' .'` of `filename.strip(' .')`
(`src/utils/file_utils.py`, line 51). -/
def isDotSpace (c : Char) : Bool :=
  c == ' ' || c == '.'

/-- The strip set `'_ '` of `filename.strip(replacement + ' ')` with the
default replacement (`src/utils/file_utils.py`, line 62). -/
def isUndSpace (c : Char) : Bool :=
  c == '_' || c == ' '

/-- Worker for `collapseRuns`: the boolean records whether the previous
character was part of a run being collapsed. -/
def collapseRunsAux (p : Char → Bool) (r : Char) : Bool → List Char → List Char
  | _, [] => []
  | inRun, c :: cs =>
      if p c then
        if inRun then collapseRunsAux p r true cs
        else r :: collapseRunsAux p r true cs
      else
        c :: collapseRunsAux p r false cs

/-- Models `re.sub(cls + '+', r, s)` for a single-character class `cls`:
every maximal run of characters satisfying `p` becomes the single
character `r` (used for `\s+` → `' '` and `_+` → `'_'`,
`src/utils/file_utils.py`, lines 48 and 57-59). -/
def collapseRuns (p : Char → Bool) (r : Char) (l : List Char) : List Char :=
  collapseRunsAux p r false l

/-- Models Python `str.strip(chars)`: remove characters satisfying `p` from
both ends. -/
def stripEnds (p : Char → Bool) (l : List Char) : List Char :=
  ((l.dropWhile p).reverse.dropWhile p).reverse

/-- ASCII-only uppercasing.  `sanitize_filename` uppercases the stem only to
compare it against the all-ASCII `RESERVED_NAMES`; on that test ASCII
uppercasing agrees extensionally with Python's `str.upper()` (no character
outside a-z uppercases to a string that equals a reserved device name). -/
def asciiUpperChar (c : Char) : Char :=
  if decide (97 ≤ c.toNat) && decide (c.toNat ≤ 122) then Char.ofNat (c.toNat - 32) else c

/-- ASCII-only lowercasing, used for the case-insensitive extension test of
`get_safe_chapter_filename`; agrees extensionally with `str.lower()` on that
test (the extensions compared against are ASCII). -/
def asciiLowerChar (c : Char) : Char :=
  if decide (65 ≤ c.toNat) && decide (c.toNat ≤ 90) then Char.ofNat (c.toNat + 32) else c

/-- The Windows reserved device names (`RESERVED_NAMES`,
`src/utils/file_utils.py`, lines 19-23). -/
def RESERVED_NAMES : List String :=
  ["CON", "PRN", "AUX", "NUL",
   "COM1", "COM2", "COM3", "COM4", "COM5", "COM6", "COM7", "COM8", "COM9",
   "LPT1", "LPT2", "LPT3", "LPT4", "LPT5", "LPT6", "LPT7", "LPT8", "LPT9"]

/-- The reserved-name test `Path(filename).stem.upper() in RESERVED_NAMES`
(`src/utils/file_utils.py`, lines 65-66). -/
def isReservedStem (l : List Char) : Bool :=
  RESERVED_NAMES.elem (String.mk ((pySplitExt l).1.map asciiUpperChar))

/-- Stage `re.sub(r'[\n\r\t\f\v]', ' ', filename)`
(`src/utils/file_utils.py`, line 45). -/
def ctrlToSpace (l : List Char) : List Char :=
  l.map (fun c => if isCtrlWs c then ' ' else c)

/-- Stage `re.sub(INVALID_FILENAME_CHARS, replacement, filename)` with the
default replacement `"_"` (`src/utils/file_utils.py`, line 54). -/
def invalidToUnd (l : List Char) : List Char :=
  l.map (fun c => if isInvalidChar c then '_' else c)

/-- Stage `if name_without_ext in RESERVED_NAMES: filename =
f"{replacement}{filename}"` (`src/utils/file_utils.py`, lines 65-67). -/
def reservedFix (l : List Char) : List Char :=
  if isReservedStem l then '_' :: l else l

/-- Stage `if len(filename) > max_length: ...` with the default
`max_length = 255` (`src/utils/file_utils.py`, lines 70-78): keep the
extension, truncate the stem to `max_length - len(ext) - 10` characters and
append an ellipsis, falling back to `"truncated{ext}"` when even that buffer
is negative. -/
def lengthFix (l : List Char) : List Char :=
  if 255 < l.length then
    let name := (pySplitExt l).1
    let ext := (pySplitExt l).2
    let maxName : Int := 255 - ext.length - 10
    if 0 < maxName then name.take maxName.toNat ++ ('.' :: '.' :: '.' :: ext)
    else "truncated".toList ++ ext
  else
    l

/-- The character-level pipeline of `sanitize_filename`
(`src/utils/file_utils.py`, lines 40-82) after NFKC normalisation, with the
default replacement `"_"` and `max_length = 255` (the only arguments the
repository ever passes). -/
def sanitizeSteps (l : List Char) : List Char :=
  lengthFix (reservedFix (stripEnds isUndSpace (collapseRuns isUnd '_'
    (invalidToUnd (stripEnds isDotSpace (collapseRuns isPySpace ' '
      (ctrlToSpace l)))))))

/-- Mirrors `sanitize_filename` (`src/utils/file_utils.py`, lines 25-89)
with its default arguments.  `nf` is the `unicodedata.normalize('NFKC', -)`
step, passed as a parameter because it is external library behaviour;
instantiating it with `id` is exact for ASCII inputs. -/
def sanitize_filename (nf : String → String) (filename : String) : String :=
  if filename = "" then "untitled"
  else
    let l := sanitizeSteps (nf filename).toList
    if l = [] ∨ l = ['_'] then "untitled" else String.mk l

/-- Python `str.strip()` with no argument (whitespace strip). -/
def pyStripWsStr (s : String) : String :=
  String.mk (stripEnds isPySpace s.toList)

/-- Python `f"{n:02d}"` for a natural number. -/
def two_digits (n : Nat) : String :=
  if n < 10 then "0" ++ toString n else toString n

/-- The character list of `s.lower()` (ASCII-only, see `asciiLowerChar`). -/
def lowerList (s : String) : List Char :=
  s.toList.map asciiLowerChar

/-- Mirrors `get_safe_chapter_filename` (`src/utils/file_utils.py`,
lines 198-236): numbered chapter title, or the document title plus a
numbered-chapter label when the chapter title is blank; append the extension
unless already present case-insensitively; clamp to 200 characters keeping
the extension. -/
def get_safe_chapter_filename (nf : String → String) (document_title : String)
    (chapter_number : Nat) (chapter_title : String) (extension : String) : String :=
  let filename :=
    if (chapter_title != "") && !(stripEnds isPySpace chapter_title.toList).isEmpty then
      two_digits chapter_number ++ "_" ++ sanitize_filename nf chapter_title
    else
      sanitize_filename nf document_title ++ "_第" ++ two_digits chapter_number ++ "章"
  let filename :=
    if (lowerList extension).isSuffixOf (lowerList filename) then filename
    else filename ++ extension
  if 200 < filename.length then
    let name_part :=
      if extension.length == 0 then []
      else filename.toList.take (filename.length - extension.length)
    String.mk (name_part.take 190 ++ ('.' :: '.' :: '.' :: extension.toList))
  else
    filename

end FileUtils

/-- Python `Path(s).name` for a possibly slash-separated path: the part
after the last `/`. -/
def pyBasename (s : String) : List Char :=
  (s.toList.reverse.takeWhile (fun c => c != '/')).reverse

/-- Python `Path(s).stem` (used on EPUB item `file_name`s, which may contain
`/` separators). -/
def pyStemStr (s : String) : String :=
  String.mk (FileUtils.pySplitExt (pyBasename s)).1

namespace EpubProcessor

/-- A parsed HTML element as seen by `_extract_title_from_content`: the tag
name and the result of `tag.get_text(strip=True)`. -/
structure HtmlTag where
  tag_name : String
  txt : String
deriving DecidableEq, Repr

/-- An EPUB content item (`ebooklib` `ITEM_DOCUMENT`): its `file_name`, a
flag for whether `_safe_get_item_content` yields usable non-empty text, and
the elements BeautifulSoup parses from that text, in document order. -/
structure EpubItem where
  file_name : String
  has_content : Bool
  tags : List HtmlTag
deriving DecidableEq, Repr

/-- Mirrors `soup.find_all(tag_name)`: all elements with the given tag name,
in document order. -/
def find_all (soup : List HtmlTag) (nm : String) : List HtmlTag :=
  soup.filter (fun t => t.tag_name == nm)

/-- The inner loop of `_extract_title_from_content` for one tag name: the
text of the first element of that name with non-empty stripped text. -/
def firstNonEmptyTag (soup : List HtmlTag) (nm : String) : Option String :=
  ((find_all soup nm).find? (fun t => t.txt != "")).map (fun t => t.txt)

/-- Mirrors `_extract_title_from_content` (`src/processors/epub_processor.py`,
lines 292-309): try `h1`, `h2`, `h3`, `title` in that order, returning the
first non-empty heading text; otherwise fall back to the item file-name's
stem (the embedded items always carry a `file_name`). -/
def extract_title_from_content (soup : List HtmlTag) (item : EpubItem) : String :=
  match firstNonEmptyTag soup "h1" with
  | some t => t
  | none =>
    match firstNonEmptyTag soup "h2" with
    | some t => t
    | none =>
      match firstNonEmptyTag soup "h3" with
      | some t => t
      | none =>
        match firstNonEmptyTag soup "title" with
        | some t => t
        | none => pyStemStr item.file_name

/-- Loop of `_extract_chapters_from_content`
(`src/processors/epub_processor.py`, lines 233-271) with the running
`enumerate` index explicit: skip items without usable content, extract a
title, and append a chapter with confidence 0.6 whenever the title is
non-empty. -/
def extractContentAux (nf : String → String) : Nat → List EpubItem → List Chapter
  | _, [] => []
  | idx, item :: rest =>
      if item.has_content then
        let title := extract_title_from_content item.tags item
        if title != "" then
          { chapter_number := idx + 1
            title := FileUtils.sanitize_filename nf title
            start_page := none
            end_page := none
            xpath := item.file_name
            detected_method := ChapterDetectionMethod.auto
            confidence_score := 6 / 10
            output_file_path := ""
            split_status := ProcessingStatus.pending } :: extractContentAux nf (idx + 1) rest
        else
          extractContentAux nf (idx + 1) rest
      else
        extractContentAux nf (idx + 1) rest

/-- Mirrors `_extract_chapters_from_content`
(`src/processors/epub_processor.py`, lines 233-271). -/
def extract_chapters_from_content (nf : String → String) (items : List EpubItem) :
    List Chapter :=
  extractContentAux nf 0 items

end EpubProcessor

/-- The title source claim C6 describes, written from the spec's words: the
first non-empty heading text in priority order `h1 > h2 > h3 > title`, if
any. -/
def claimHeadingChoice (soup : List EpubProcessor.HtmlTag) : Option String :=
  (EpubProcessor.firstNonEmptyTag soup "h1").orElse (fun _ =>
    (EpubProcessor.firstNonEmptyTag soup "h2").orElse (fun _ =>
      (EpubProcessor.firstNonEmptyTag soup "h3").orElse (fun _ =>
        EpubProcessor.firstNonEmptyTag soup "title")))

/-- C6 (corrected): when no heading is found, the item's file-stem is indeed
used as the title, but the chapter is still created with confidence 0.6 —
not 0.3 as the claim states (0.3 appears only in the TOC-link error
fallback).  A content item with no headings and file name `chap1.xhtml`
yields a chapter titled `chap1` with confidence 0.6. -/
theorem C6_counterexample :
    (EpubProcessor.extract_chapters_from_content id
        [EpubProcessor.EpubItem.mk "chap1.xhtml" true []]).map
        (fun c => (c.title, c.confidence_score)) = [("chap1", 6 / 10)] ∧
      (6 / 10 : Rat) ≠ 3 / 10 := by
  refine ⟨by rfl, by norm_num⟩

theorem extract_title_eq_claim_choice (soup : List EpubProcessor.HtmlTag)
    (item : EpubProcessor.EpubItem) :
    EpubProcessor.extract_title_from_content soup item =
      (claimHeadingChoice soup).getD (pyStemStr item.file_name) := by
  unfold EpubProcessor.extract_title_from_content claimHeadingChoice
  cases EpubProcessor.firstNonEmptyTag soup "h1" with
  | some t => rfl
  | none =>
    cases EpubProcessor.firstNonEmptyTag soup "h2" with
    | some t => rfl
    | none =>
      cases EpubProcessor.firstNonEmptyTag soup "h3" with
      | some t => rfl
      | none =>
        cases EpubProcessor.firstNonEmptyTag soup "title" with
        | some t => rfl
        | none => rfl

theorem extractContentAux_confidence (nf : String → String) (idx : Nat)
    (items : List EpubProcessor.EpubItem) :
    ∀ c ∈ EpubProcessor.extractContentAux nf idx items, c.confidence_score = 6 / 10 := by
  induction items generalizing idx with
  | nil => intro c hc; simp [EpubProcessor.extractContentAux] at hc
  | cons item rest ih =>
    intro c hc
    unfold EpubProcessor.extractContentAux at hc
    by_cases hcont : item.has_content
    · simp only [hcont, if_true] at hc
      by_cases ht : EpubProcessor.extract_title_from_content item.tags item != ""
      · simp only [ht, if_true, List.mem_cons] at hc
        cases hc with
        | inl h => subst h; rfl
        | inr h => exact ih (idx + 1) c h
      · simp only [ht, if_false] at hc
        exact ih (idx + 1) c hc
    · simp only [Bool.not_eq_true] at hcont
      simp only [hcont, Bool.false_eq_true, if_false] at hc
      exact ih (idx + 1) c hc

/-- C6 (amended): for every content item, the chapter title is taken from
the first non-empty heading in priority order `h1 > h2 > h3 > title`, and
when no heading is found the item's file-stem is used as the title — but in
both cases the chapter is created with confidence 0.6 (the claimed 0.3 for
the file-stem fallback does not occur in heuristic content detection). -/
theorem C6_heuristic_titles (nf : String → String) (soup : List EpubProcessor.HtmlTag)
    (item : EpubProcessor.EpubItem) (idx : Nat) (items : List EpubProcessor.EpubItem) :
    EpubProcessor.extract_title_from_content soup item =
        (claimHeadingChoice soup).getD (pyStemStr item.file_name) ∧
      ∀ c ∈ EpubProcessor.extractContentAux nf idx items, c.confidence_score = 6 / 10 :=
  ⟨extract_title_eq_claim_choice soup item, extractContentAux_confidence nf idx items⟩

namespace PdfProcessor

/-- Outcome of `PyPDF2.PdfReader` on an input file, as observed by
`_extract_pdf_metadata`: either the read raises, or it succeeds with a page
count, an optional metadata dictionary (`pdf_reader.metadata`, absent when
falsy) and an optional `pdf_header`. -/
inductive PdfReaderState where
  | readFail
  | readOk (page_count : Nat) (meta : Option (List (String × String)))
      (pdf_header : Option String)
deriving DecidableEq, Repr

/-- Mirrors `_safe_get_pdf_meta` (`src/processors/pdf_processor.py`,
lines 108-117): if the key is present and its value truthy, return the
stripped string value; in every other case return the empty string. -/
def safe_get_pdf_meta (meta : List (String × String)) (key : String) : String :=
  match meta.lookup key with
  | some v => if v ≠ "" then FileUtils.pyStripWsStr v else ""
  | none => ""

/-- The best-effort metadata map built by `_extract_pdf_metadata`; `Option`
fields model dictionary keys that may be absent. -/
structure PdfMetadata where
  title : Option String
  author : Option String
  subject : Option String
  creator : Option String
  producer : Option String
  creation_date : Option String
  modification_date : Option String
  page_count : Option Nat
  pdf_version : Option String
deriving DecidableEq, Repr

/-- Mirrors `_extract_pdf_metadata` (`src/processors/pdf_processor.py`,
lines 62-106).  It is a total function of the reader state — the embedded
counterpart of `never raises`: every exception path ends in the fixed
fallback map `{title: stem, author: "unknown", page_count: 0}`. -/
def extract_pdf_metadata (stem : String) (r : PdfReaderState) : PdfMetadata :=
  match r with
  | PdfReaderState.readFail =>
      { title := some stem
        author := some "unknown"
        subject := none
        creator := none
        producer := none
        creation_date := none
        modification_date := none
        page_count := some 0
        pdf_version := none }
  | PdfReaderState.readOk n meta hdr =>
      match meta with
      | some kvs =>
          { title := some (safe_get_pdf_meta kvs "/Title")
            author := some (safe_get_pdf_meta kvs "/Author")
            subject := some (safe_get_pdf_meta kvs "/Subject")
            creator := some (safe_get_pdf_meta kvs "/Creator")
            producer := some (safe_get_pdf_meta kvs "/Producer")
            creation_date := some (safe_get_pdf_meta kvs "/CreationDate")
            modification_date := some (safe_get_pdf_meta kvs "/ModDate")
            page_count := some n
            pdf_version := some (hdr.getD "unknown") }
      | none =>
          { title := none
            author := none
            subject := none
            creator := none
            producer := none
            creation_date := none
            modification_date := none
            page_count := some n
            pdf_version := some (hdr.getD "unknown") }

/-- The title the `Document` created by `read_pdf_document` receives
(`src/processors/pdf_processor.py`, line 49):
`metadata.get('title', file_path_obj.stem)`. -/
def read_pdf_document_title (stem : String) (r : PdfReaderState) : String :=
  (extract_pdf_metadata stem r).title.getD stem

/-- The author the `Document` receives (`src/processors/pdf_processor.py`,
line 50): `metadata.get('author', '')`. -/
def read_pdf_document_author (stem : String) (r : PdfReaderState) : String :=
  (extract_pdf_metadata stem r).author.getD ""

end PdfProcessor

/-- C8 (corrected): the claim says every field that cannot be extracted is
omitted or set to its documented default (title → stem, author →
"unknown").  But when the reader succeeds and exposes a metadata object that
merely lacks `/Title`, `_safe_get_pdf_meta` returns the empty string, so the
`title` key is present with value `""` and the resulting document title is
`""`, not the filename stem. -/
theorem C8_counterexample :
    PdfProcessor.read_pdf_document_title "mybook"
        (PdfProcessor.PdfReaderState.readOk 5 (some []) none) = "" ∧
      ("" : String) ≠ "mybook" := by
  refine ⟨rfl, by decide⟩

/-- C8 (amended): metadata extraction is modelled as a total function (no
exception escapes it).  When the whole read fails, the map is exactly
`{title: stem, author: "unknown", page_count: 0}` and the document title and
author fall back accordingly.  When the reader succeeds without a metadata
object, the title/author keys are omitted and the document title falls back
to the filename stem.  But when a metadata object is present, each field is
always set — a missing or falsy individual value yields the empty string
(not the documented default), and the document title is then that possibly
empty string rather than the stem. -/
theorem C8_metadata_defaults (stem : String) :
    (PdfProcessor.extract_pdf_metadata stem PdfProcessor.PdfReaderState.readFail =
        { title := some stem
          author := some "unknown"
          subject := none
          creator := none
          producer := none
          creation_date := none
          modification_date := none
          page_count := some 0
          pdf_version := none } ∧
      PdfProcessor.read_pdf_document_title stem PdfProcessor.PdfReaderState.readFail = stem ∧
      PdfProcessor.read_pdf_document_author stem PdfProcessor.PdfReaderState.readFail = "unknown") ∧
    (∀ n hdr,
      (PdfProcessor.extract_pdf_metadata stem (PdfProcessor.PdfReaderState.readOk n none hdr)).title = none ∧
      (PdfProcessor.extract_pdf_metadata stem (PdfProcessor.PdfReaderState.readOk n none hdr)).page_count = some n ∧
      PdfProcessor.read_pdf_document_title stem (PdfProcessor.PdfReaderState.readOk n none hdr) = stem) ∧
    (∀ n kvs hdr,
      (PdfProcessor.extract_pdf_metadata stem (PdfProcessor.PdfReaderState.readOk n (some kvs) hdr)).title =
          some (PdfProcessor.safe_get_pdf_meta kvs "/Title") ∧
      (PdfProcessor.extract_pdf_metadata stem (PdfProcessor.PdfReaderState.readOk n (some kvs) hdr)).page_count = some n ∧
      (List.lookup "/Title" kvs = none →
        PdfProcessor.read_pdf_document_title stem (PdfProcessor.PdfReaderState.readOk n (some kvs) hdr) = "")) := by
  refine ⟨⟨rfl, rfl, rfl⟩, fun n hdr => ⟨rfl, rfl, rfl⟩, fun n kvs hdr => ⟨rfl, rfl, fun hk => ?_⟩⟩
  simp [PdfProcessor.read_pdf_document_title, PdfProcessor.extract_pdf_metadata,
    PdfProcessor.safe_get_pdf_meta, hk]

/-- Witness for C8 at a concrete reader state: a failed read of `mybook.pdf`
yields the documented defaults, and a successful read with an empty metadata
dictionary yields the empty title. -/
theorem C8_metadata_defaults_witness :
    PdfProcessor.read_pdf_document_title "mybook" PdfProcessor.PdfReaderState.readFail = "mybook" ∧
      PdfProcessor.read_pdf_document_title "mybook"
        (PdfProcessor.PdfReaderState.readOk 5 (some [("/Author", "A")]) none) = "" := by
  have h := C8_metadata_defaults "mybook"
  exact ⟨h.1.2.1, (h.2.2 5 [("/Author", "A")] none).2.2 (by decide)⟩

/-- The fields of the `Document` dataclass that the splitters consume. -/
structure Document where
  file_path : String
  file_name : String
  title : String
  author : String
  file_type : FileType
deriving DecidableEq, Repr

/-- The fields of the `SplitSettings` dataclass that the splitters consume
(`src/core/data_models.py`, lines 198-218). -/
structure SplitSettings where
  output_directory : String
  output_format : OutputFormat
  preserve_metadata : Bool
deriving DecidableEq, Repr

/-- Mirrors `SplitSettings.get_output_extension`
(`src/core/data_models.py`, lines 225-233). -/
def SplitSettings.get_output_extension (s : SplitSettings) (input_file_type : FileType) :
    String :=
  match s.output_format with
  | OutputFormat.same_as_input => if input_file_type = FileType.pdf then ".pdf" else ".epub"
  | OutputFormat.pdf => ".pdf"
  | OutputFormat.epub => ".epub"

/-- Mirrors `SplitSettings.requires_format_conversion`
(`src/core/data_models.py`, lines 235-243). -/
def SplitSettings.requires_format_conversion (s : SplitSettings)
    (input_file_type : FileType) : Bool :=
  match s.output_format with
  | OutputFormat.same_as_input => false
  | OutputFormat.pdf => input_file_type != FileType.pdf
  | OutputFormat.epub => input_file_type != FileType.epub

/-- Environment outcome for the work done on one chapter inside the
per-chapter `try` of the splitters: everything succeeds, or some step raises
(for the PDF splitter both the inner file-save `except` and the outer
per-chapter `except` set the chapter status to `ERROR` and produce no output
file; for the EPUB splitter likewise `_extract_and_save_chapter` returning
`False` and the outer `except`). -/
inductive ChapterEvent where
  | ok
  | stepFail
deriving DecidableEq, Repr

/-- The filesystem as seen by `ensure_unique_filename` during a split run:
the files existing before the run (`ex`) plus the files written so far. -/
def exWith (ex : FsPath → Bool) (written : List FsPath) (p : FsPath) : Bool :=
  ex p || written.elem p

/-- The full path string `str(output_path)` recorded on success. -/
def FileUtils.FsPath.full (p : FsPath) : String :=
  p.parent ++ "/" ++ p.name

namespace PdfProcessor

/-- One iteration of the chapter loop of `split_pdf_by_chapters`
(`src/processors/pdf_processor.py`, lines 309-366): skip chapters that fail
`is_valid_pdf_chapter` (status untouched, nothing written); otherwise build
the safe unique output path and, if every step succeeds, mark the chapter
`SUCCESS` with its output path — on any raised step mark it `ERROR` with no
output.  (The page-copy loop itself only affects the bytes of the output
file, which no claim concerns, and is elided.) -/
def pdfChapterStep (nf : String → String) (ex : FsPath → Bool) (ts : Nat)
    (doc : Document) (dir ext : String) (written : List FsPath) (c : Chapter)
    (ev : ChapterEvent) : Chapter × Option FsPath :=
  if c.is_valid_pdf_chapter then
    match ev with
    | ChapterEvent.ok =>
        let safe := FileUtils.get_safe_chapter_filename nf doc.title c.chapter_number c.title ext
        let path := FileUtils.ensure_unique_filename (exWith ex written) ts (FsPath.mk dir safe)
        ({ c with output_file_path := path.full, split_status := ProcessingStatus.success },
          some path)
    | ChapterEvent.stepFail =>
        ({ c with split_status := ProcessingStatus.error }, none)
  else
    (c, none)

/-- The chapter loop of `split_pdf_by_chapters`, with the list of files
written so far threaded through the filesystem oracle and the per-chapter
environment outcomes indexed by position. -/
def pdfSplitLoop (nf : String → String) (ex : FsPath → Bool) (ts : Nat)
    (doc : Document) (dir ext : String) (ev : Nat → ChapterEvent) :
    Nat → List FsPath → List Chapter → List Chapter × List String
  | _, _, [] => ([], [])
  | i, written, c :: cs =>
      match pdfChapterStep nf ex ts doc dir ext written c (ev i) with
      | (c', some p) =>
          let rest := pdfSplitLoop nf ex ts doc dir ext ev (i + 1) (written ++ [p]) cs
          (c' :: rest.1, p.full :: rest.2)
      | (c', none) =>
          let rest := pdfSplitLoop nf ex ts doc dir ext ev (i + 1) written cs
          (c' :: rest.1, rest.2)

end PdfProcessor

/-- Result of a successful split run: the final chapter states, the returned
list of written output paths, and whether the unsupported-conversion warning
was logged. -/
structure SplitOutcome where
  chapters : List Chapter
  output_files : List String
  conversion_warned : Bool
deriving DecidableEq, Repr

namespace PdfProcessor

/-- Mirrors `split_pdf_by_chapters` (`src/processors/pdf_processor.py`,
lines 284-373).  `dir_valid` is the outcome of `validate_output_directory`,
`open_ok` whether opening/parsing the source PDF succeeds; either failing
raises `FileProcessingError` (the `Except.error` cases) before any chapter
work.  A forced PDF→EPUB conversion is not attempted: a warning is logged
and the extension reverts to `.pdf`. -/
def split_pdf_by_chapters (nf : String → String) (ex : FsPath → Bool) (ts : Nat)
    (doc : Document) (chapters : List Chapter) (settings : SplitSettings)
    (dir_valid open_ok : Bool) (ev : Nat → ChapterEvent) :
    Except String SplitOutcome :=
  if !dir_valid then Except.error "output directory error"
  else
    let ext0 := settings.get_output_extension doc.file_type
    let warned := settings.requires_format_conversion doc.file_type &&
      (settings.output_format == OutputFormat.epub)
    let ext := if warned then ".pdf" else ext0
    if !open_ok then Except.error "read error"
    else
      let r := pdfSplitLoop nf ex ts doc settings.output_directory ext ev 0 [] chapters
      Except.ok (SplitOutcome.mk r.1 r.2 warned)

end PdfProcessor

namespace EpubProcessor

/-- One iteration of the chapter loop of `split_epub_by_chapters`
(`src/processors/epub_processor.py`, lines 341-374): skip chapters with an
empty `xpath` (status untouched, nothing written); otherwise build the safe
unique output path and, if `_extract_and_save_chapter` succeeds, mark the
chapter `SUCCESS` with its output path — if it returns `False` or any step
raises, mark it `ERROR` with no output. -/
def epubChapterStep (nf : String → String) (ex : FsPath → Bool) (ts : Nat)
    (doc : Document) (dir ext : String) (written : List FsPath) (c : Chapter)
    (ev : ChapterEvent) : Chapter × Option FsPath :=
  if c.xpath != "" then
    match ev with
    | ChapterEvent.ok =>
        let safe := FileUtils.get_safe_chapter_filename nf doc.title c.chapter_number c.title ext
        let path := FileUtils.ensure_unique_filename (exWith ex written) ts (FsPath.mk dir safe)
        ({ c with output_file_path := path.full, split_status := ProcessingStatus.success },
          some path)
    | ChapterEvent.stepFail =>
        ({ c with split_status := ProcessingStatus.error }, none)
  else
    (c, none)

/-- The chapter loop of `split_epub_by_chapters`. -/
def epubSplitLoop (nf : String → String) (ex : FsPath → Bool) (ts : Nat)
    (doc : Document) (dir ext : String) (ev : Nat → ChapterEvent) :
    Nat → List FsPath → List Chapter → List Chapter × List String
  | _, _, [] => ([], [])
  | i, written, c :: cs =>
      match epubChapterStep nf ex ts doc dir ext written c (ev i) with
      | (c', some p) =>
          let rest := epubSplitLoop nf ex ts doc dir ext ev (i + 1) (written ++ [p]) cs
          (c' :: rest.1, p.full :: rest.2)
      | (c', none) =>
          let rest := epubSplitLoop nf ex ts doc dir ext ev (i + 1) written cs
          (c' :: rest.1, rest.2)

/-- Mirrors `split_epub_by_chapters` (`src/processors/epub_processor.py`,
lines 316-381).  `open_ok` is whether `epub.read_epub` on the source
succeeds.  A forced EPUB→PDF conversion is not attempted: a warning is
logged and the extension reverts to `.epub`. -/
def split_epub_by_chapters (nf : String → String) (ex : FsPath → Bool) (ts : Nat)
    (doc : Document) (chapters : List Chapter) (settings : SplitSettings)
    (dir_valid open_ok : Bool) (ev : Nat → ChapterEvent) :
    Except String SplitOutcome :=
  if !dir_valid then Except.error "output directory error"
  else
    let ext0 := settings.get_output_extension doc.file_type
    let warned := settings.requires_format_conversion doc.file_type &&
      (settings.output_format == OutputFormat.pdf)
    let ext := if warned then ".epub" else ext0
    if !open_ok then Except.error "read error"
    else
      let r := epubSplitLoop nf ex ts doc settings.output_directory ext ev 0 [] chapters
      Except.ok (SplitOutcome.mk r.1 r.2 warned)

end EpubProcessor

/-- The split status claim C3 predicts for one chapter from its own validity
and its own environment outcome alone: an invalid chapter keeps its status,
a valid one becomes `SUCCESS` or `ERROR` according to whether its own
processing succeeded — independently of every other chapter. -/
def expectedStatusPdf (c : Chapter) (e : ChapterEvent) : ProcessingStatus :=
  if c.is_valid_pdf_chapter then
    match e with
    | ChapterEvent.ok => ProcessingStatus.success
    | ChapterEvent.stepFail => ProcessingStatus.error
  else c.split_status

/-- Per-chapter predicted statuses for a PDF split run. -/
def expectedStatusesPdf (ev : Nat → ChapterEvent) : Nat → List Chapter → List ProcessingStatus
  | _, [] => []
  | i, c :: cs => expectedStatusPdf c (ev i) :: expectedStatusesPdf ev (i + 1) cs

/-- As `expectedStatusPdf`, for the EPUB splitter's pre-check. -/
def expectedStatusEpub (c : Chapter) (e : ChapterEvent) : ProcessingStatus :=
  if c.xpath != "" then
    match e with
    | ChapterEvent.ok => ProcessingStatus.success
    | ChapterEvent.stepFail => ProcessingStatus.error
  else c.split_status

/-- Per-chapter predicted statuses for an EPUB split run. -/
def expectedStatusesEpub (ev : Nat → ChapterEvent) : Nat → List Chapter → List ProcessingStatus
  | _, [] => []
  | i, c :: cs => expectedStatusEpub c (ev i) :: expectedStatusesEpub ev (i + 1) cs

theorem pdfSplitLoop_statuses (nf : String → String) (ex : FsPath → Bool) (ts : Nat)
    (doc : Document) (dir ext : String) (ev : Nat → ChapterEvent) (cs : List Chapter) :
    ∀ i written,
      (PdfProcessor.pdfSplitLoop nf ex ts doc dir ext ev i written cs).1.map
          (fun c => c.split_status) = expectedStatusesPdf ev i cs := by
  induction cs with
  | nil => intro i written; rfl
  | cons c cs ih =>
    intro i written
    by_cases hval : c.is_valid_pdf_chapter
    · cases hev : ev i with
      | ok =>
        simp [PdfProcessor.pdfSplitLoop, PdfProcessor.pdfChapterStep, hval, hev,
          expectedStatusesPdf, expectedStatusPdf, ih]
      | stepFail =>
        simp [PdfProcessor.pdfSplitLoop, PdfProcessor.pdfChapterStep, hval, hev,
          expectedStatusesPdf, expectedStatusPdf, ih]
    · simp [PdfProcessor.pdfSplitLoop, PdfProcessor.pdfChapterStep, hval,
        expectedStatusesPdf, expectedStatusPdf, ih]

theorem epubSplitLoop_statuses (nf : String → String) (ex : FsPath → Bool) (ts : Nat)
    (doc : Document) (dir ext : String) (ev : Nat → ChapterEvent) (cs : List Chapter) :
    ∀ i written,
      (EpubProcessor.epubSplitLoop nf ex ts doc dir ext ev i written cs).1.map
          (fun c => c.split_status) = expectedStatusesEpub ev i cs := by
  induction cs with
  | nil => intro i written; rfl
  | cons c cs ih =>
    intro i written
    by_cases hval : c.xpath != ""
    · cases hev : ev i with
      | ok =>
        simp only [EpubProcessor.epubSplitLoop, EpubProcessor.epubChapterStep, hval, hev,
          if_true, List.map_cons, expectedStatusesEpub, expectedStatusEpub, ih]
      | stepFail =>
        simp only [EpubProcessor.epubSplitLoop, EpubProcessor.epubChapterStep, hval, hev,
          if_true, List.map_cons, expectedStatusesEpub, expectedStatusEpub, ih]
    · simp only [Bool.not_eq_true] at hval
      simp only [EpubProcessor.epubSplitLoop, EpubProcessor.epubChapterStep, hval,
        Bool.false_eq_true, if_false, List.map_cons, expectedStatusesEpub,
        expectedStatusEpub, ih]

/-- C3 (confirmed): with a valid output directory and a readable source,
both splitters return `Except.ok` (a list of paths, never an exception) for
*every* pattern of per-chapter outcomes, and each chapter's final split
status is `expectedStatus*` — a function of that chapter's own validity and
its own outcome alone, so one chapter's failure marks only that chapter
`ERROR` and the remaining chapters are still processed.  Only the two
setup-level failures — invalid output directory, unopenable source — abort
the functions with an exception, before any per-chapter work. -/
theorem C3_error_isolation (nf : String → String) (ex : FsPath → Bool) (ts : Nat)
    (doc : Document) (chs : List Chapter) (settings : SplitSettings)
    (ev : Nat → ChapterEvent) (oopen : Bool) :
    (PdfProcessor.split_pdf_by_chapters nf ex ts doc chs settings false oopen ev =
        Except.error "output directory error") ∧
      (PdfProcessor.split_pdf_by_chapters nf ex ts doc chs settings true false ev =
        Except.error "read error") ∧
      (∃ out, PdfProcessor.split_pdf_by_chapters nf ex ts doc chs settings true true ev =
          Except.ok out ∧
        out.chapters.map (fun c => c.split_status) = expectedStatusesPdf ev 0 chs) ∧
      (EpubProcessor.split_epub_by_chapters nf ex ts doc chs settings false oopen ev =
        Except.error "output directory error") ∧
      (EpubProcessor.split_epub_by_chapters nf ex ts doc chs settings true false ev =
        Except.error "read error") ∧
      (∃ out, EpubProcessor.split_epub_by_chapters nf ex ts doc chs settings true true ev =
          Except.ok out ∧
        out.chapters.map (fun c => c.split_status) = expectedStatusesEpub ev 0 chs) := by
  refine ⟨rfl, rfl, ⟨_, rfl, ?_⟩, rfl, rfl, ⟨_, rfl, ?_⟩⟩
  · exact pdfSplitLoop_statuses nf ex ts doc settings.output_directory _ ev chs 0 []
  · exact epubSplitLoop_statuses nf ex ts doc settings.output_directory _ ev chs 0 []

/-- Number of chapters of a PDF run that pass the pre-check and whose
processing succeeds — exactly the entries of the returned output list. -/
def countValidOkPdf (ev : Nat → ChapterEvent) : Nat → List Chapter → Nat
  | _, [] => 0
  | i, c :: cs =>
      (if c.is_valid_pdf_chapter && (ev i == ChapterEvent.ok) then 1 else 0) +
        countValidOkPdf ev (i + 1) cs

/-- Number of chapters of an EPUB run that pass the pre-check and whose
processing succeeds. -/
def countValidOkEpub (ev : Nat → ChapterEvent) : Nat → List Chapter → Nat
  | _, [] => 0
  | i, c :: cs =>
      (if (c.xpath != "") && (ev i == ChapterEvent.ok) then 1 else 0) +
        countValidOkEpub ev (i + 1) cs

theorem pdfSplitLoop_untouched (nf : String → String) (ex : FsPath → Bool) (ts : Nat)
    (doc : Document) (dir ext : String) (ev : Nat → ChapterEvent) (cs : List Chapter) :
    ∀ i written j c, cs.get? j = some c → c.is_valid_pdf_chapter = false →
      (PdfProcessor.pdfSplitLoop nf ex ts doc dir ext ev i written cs).1.get? j = some c := by
  induction cs with
  | nil => intro i written j c hj _; simp at hj
  | cons c0 cs ih =>
    intro i written j c hj hc
    cases j with
    | zero =>
      simp only [List.get?_cons_zero, Option.some_inj] at hj
      subst hj
      simp [PdfProcessor.pdfSplitLoop, PdfProcessor.pdfChapterStep, hc]
    | succ j =>
      simp only [List.get?_cons_succ] at hj
      by_cases hval : c0.is_valid_pdf_chapter
      · cases hev : ev i with
        | ok =>
          simp only [PdfProcessor.pdfSplitLoop, PdfProcessor.pdfChapterStep, hval, hev,
            if_true, List.get?_cons_succ]
          exact ih (i + 1) _ j c hj hc
        | stepFail =>
          simp only [PdfProcessor.pdfSplitLoop, PdfProcessor.pdfChapterStep, hval, hev,
            if_true, List.get?_cons_succ]
          exact ih (i + 1) _ j c hj hc
      · simp only [Bool.not_eq_true] at hval
        simp only [PdfProcessor.pdfSplitLoop, PdfProcessor.pdfChapterStep, hval,
          Bool.false_eq_true, if_false, List.get?_cons_succ]
        exact ih (i + 1) _ j c hj hc

theorem epubSplitLoop_untouched (nf : String → String) (ex : FsPath → Bool) (ts : Nat)
    (doc : Document) (dir ext : String) (ev : Nat → ChapterEvent) (cs : List Chapter) :
    ∀ i written j c, cs.get? j = some c → c.xpath = "" →
      (EpubProcessor.epubSplitLoop nf ex ts doc dir ext ev i written cs).1.get? j = some c := by
  induction cs with
  | nil => intro i written j c hj _; simp at hj
  | cons c0 cs ih =>
    intro i written j c hj hc
    cases j with
    | zero =>
      simp only [List.get?_cons_zero, Option.some_inj] at hj
      subst hj
      simp [EpubProcessor.epubSplitLoop, EpubProcessor.epubChapterStep, hc]
    | succ j =>
      simp only [List.get?_cons_succ] at hj
      by_cases hval : c0.xpath != ""
      · cases hev : ev i with
        | ok =>
          simp only [EpubProcessor.epubSplitLoop, EpubProcessor.epubChapterStep, hval, hev,
            if_true, List.get?_cons_succ]
          exact ih (i + 1) _ j c hj hc
        | stepFail =>
          simp only [EpubProcessor.epubSplitLoop, EpubProcessor.epubChapterStep, hval, hev,
            if_true, List.get?_cons_succ]
          exact ih (i + 1) _ j c hj hc
      · simp only [Bool.not_eq_true] at hval
        simp only [EpubProcessor.epubSplitLoop, EpubProcessor.epubChapterStep, hval,
          Bool.false_eq_true, if_false, List.get?_cons_succ]
        exact ih (i + 1) _ j c hj hc

theorem pdfSplitLoop_outcount (nf : String → String) (ex : FsPath → Bool) (ts : Nat)
    (doc : Document) (dir ext : String) (ev : Nat → ChapterEvent) (cs : List Chapter) :
    ∀ i written,
      (PdfProcessor.pdfSplitLoop nf ex ts doc dir ext ev i written cs).2.length =
        countValidOkPdf ev i cs := by
  induction cs with
  | nil => intro i written; rfl
  | cons c cs ih =>
    intro i written
    by_cases hval : c.is_valid_pdf_chapter
    · cases hev : ev i with
      | ok =>
        simp [PdfProcessor.pdfSplitLoop, PdfProcessor.pdfChapterStep, hval, hev,
          countValidOkPdf, ih, Nat.add_comm]
      | stepFail =>
        simp [PdfProcessor.pdfSplitLoop, PdfProcessor.pdfChapterStep, hval, hev,
          countValidOkPdf, ih]
    · simp only [Bool.not_eq_true] at hval
      simp [PdfProcessor.pdfSplitLoop, PdfProcessor.pdfChapterStep, hval,
        countValidOkPdf, ih]

theorem epubSplitLoop_outcount (nf : String → String) (ex : FsPath → Bool) (ts : Nat)
    (doc : Document) (dir ext : String) (ev : Nat → ChapterEvent) (cs : List Chapter) :
    ∀ i written,
      (EpubProcessor.epubSplitLoop nf ex ts doc dir ext ev i written cs).2.length =
        countValidOkEpub ev i cs := by
  induction cs with
  | nil => intro i written; rfl
  | cons c cs ih =>
    intro i written
    by_cases hval : c.xpath != ""
    · cases hev : ev i with
      | ok =>
        simp [EpubProcessor.epubSplitLoop, EpubProcessor.epubChapterStep, hval, hev,
          countValidOkEpub, ih, Nat.add_comm]
      | stepFail =>
        simp [EpubProcessor.epubSplitLoop, EpubProcessor.epubChapterStep, hval, hev,
          countValidOkEpub, ih]
    · simp only [Bool.not_eq_true] at hval
      simp [EpubProcessor.epubSplitLoop, EpubProcessor.epubChapterStep, hval,
        countValidOkEpub, ih]

/-- C10 (confirmed): a chapter that fails the pre-check (PDF: missing pages,
`start_page > end_page` or `start_page <= 0`; EPUB: empty content-item
reference) is skipped entirely — the `Chapter` record is returned verbatim,
so its split status stays `pending` and no output path is assigned — and the
returned output list has exactly one entry per valid successfully processed
chapter, so skipped chapters contribute none while all other chapters are
still processed. -/
theorem C10_precheck_skip (nf : String → String) (ex : FsPath → Bool) (ts : Nat)
    (doc : Document) (chs : List Chapter) (settings : SplitSettings)
    (ev : Nat → ChapterEvent) :
    (∃ out, PdfProcessor.split_pdf_by_chapters nf ex ts doc chs settings true true ev =
        Except.ok out ∧
      (∀ j c, chs.get? j = some c → c.is_valid_pdf_chapter = false →
        out.chapters.get? j = some c) ∧
      out.output_files.length = countValidOkPdf ev 0 chs ∧
      out.chapters.map (fun c => c.split_status) = expectedStatusesPdf ev 0 chs) ∧
    (∃ out, EpubProcessor.split_epub_by_chapters nf ex ts doc chs settings true true ev =
        Except.ok out ∧
      (∀ j c, chs.get? j = some c → c.xpath = "" →
        out.chapters.get? j = some c) ∧
      out.output_files.length = countValidOkEpub ev 0 chs ∧
      out.chapters.map (fun c => c.split_status) = expectedStatusesEpub ev 0 chs) := by
  refine ⟨⟨_, rfl, ?_, ?_, ?_⟩, ⟨_, rfl, ?_, ?_, ?_⟩⟩
  · intro j c hj hc
    exact pdfSplitLoop_untouched nf ex ts doc settings.output_directory _ ev chs 0 [] j c hj hc
  · exact pdfSplitLoop_outcount nf ex ts doc settings.output_directory _ ev chs 0 []
  · exact pdfSplitLoop_statuses nf ex ts doc settings.output_directory _ ev chs 0 []
  · intro j c hj hc
    exact epubSplitLoop_untouched nf ex ts doc settings.output_directory _ ev chs 0 [] j c hj hc
  · exact epubSplitLoop_outcount nf ex ts doc settings.output_directory _ ev chs 0 []
  · exact epubSplitLoop_statuses nf ex ts doc settings.output_directory _ ev chs 0 []

/-- The conversion-independent projection of a split result: final chapter
states and written output paths (everything except the warning flag). -/
def splitProj (r : Except String SplitOutcome) : Except String (List Chapter × List String) :=
  r.map (fun o => (o.chapters, o.output_files))

/-- C9 (confirmed): a split whose settings request an unsupported conversion
(force-EPUB output on a PDF source, or force-PDF output on an EPUB source)
does not fail and does not convert: the run records the warning and produces
exactly the chapters and output files of the same run with
same-as-input output requested — in particular the files carry the source's
native extension. -/
theorem C9_conversion_degrades (nf : String → String) (ex : FsPath → Bool) (ts : Nat)
    (doc : Document) (chs : List Chapter) (ev : Nat → ChapterEvent)
    (outdir : String) (preserve : Bool) (dirv oopen : Bool) :
    (doc.file_type = FileType.pdf →
      splitProj (PdfProcessor.split_pdf_by_chapters nf ex ts doc chs
          (SplitSettings.mk outdir OutputFormat.epub preserve) dirv oopen ev) =
        splitProj (PdfProcessor.split_pdf_by_chapters nf ex ts doc chs
          (SplitSettings.mk outdir OutputFormat.same_as_input preserve) dirv oopen ev) ∧
      (∀ out, PdfProcessor.split_pdf_by_chapters nf ex ts doc chs
          (SplitSettings.mk outdir OutputFormat.epub preserve) dirv oopen ev =
            Except.ok out → out.conversion_warned = true)) ∧
    (doc.file_type = FileType.epub →
      splitProj (EpubProcessor.split_epub_by_chapters nf ex ts doc chs
          (SplitSettings.mk outdir OutputFormat.pdf preserve) dirv oopen ev) =
        splitProj (EpubProcessor.split_epub_by_chapters nf ex ts doc chs
          (SplitSettings.mk outdir OutputFormat.same_as_input preserve) dirv oopen ev) ∧
      (∀ out, EpubProcessor.split_epub_by_chapters nf ex ts doc chs
          (SplitSettings.mk outdir OutputFormat.pdf preserve) dirv oopen ev =
            Except.ok out → out.conversion_warned = true)) := by
  constructor
  · intro hft
    constructor
    · cases dirv with
      | false => rfl
      | true =>
        cases oopen with
        | false => rfl
        | true =>
          simp only [PdfProcessor.split_pdf_by_chapters, splitProj,
            SplitSettings.get_output_extension, SplitSettings.requires_format_conversion, hft]
          rfl
    · intro out hout
      cases dirv with
      | false => exact absurd hout (by simp [PdfProcessor.split_pdf_by_chapters])
      | true =>
        cases oopen with
        | false => exact absurd hout (by simp [PdfProcessor.split_pdf_by_chapters])
        | true =>
          have h2 : PdfProcessor.split_pdf_by_chapters nf ex ts doc chs
              (SplitSettings.mk outdir OutputFormat.epub preserve) true true ev =
              Except.ok (SplitOutcome.mk
                (PdfProcessor.pdfSplitLoop nf ex ts doc outdir ".pdf" ev 0 [] chs).1
                (PdfProcessor.pdfSplitLoop nf ex ts doc outdir ".pdf" ev 0 [] chs).2 true) := by
            simp [PdfProcessor.split_pdf_by_chapters, SplitSettings.get_output_extension,
              SplitSettings.requires_format_conversion, hft]
          rw [h2] at hout
          injection hout with h3
          rw [← h3]
  · intro hft
    constructor
    · cases dirv with
      | false => rfl
      | true =>
        cases oopen with
        | false => rfl
        | true =>
          simp only [EpubProcessor.split_epub_by_chapters, splitProj,
            SplitSettings.get_output_extension, SplitSettings.requires_format_conversion, hft]
          rfl
    · intro out hout
      cases dirv with
      | false => exact absurd hout (by simp [EpubProcessor.split_epub_by_chapters])
      | true =>
        cases oopen with
        | false => exact absurd hout (by simp [EpubProcessor.split_epub_by_chapters])
        | true =>
          have h2 : EpubProcessor.split_epub_by_chapters nf ex ts doc chs
              (SplitSettings.mk outdir OutputFormat.pdf preserve) true true ev =
              Except.ok (SplitOutcome.mk
                (EpubProcessor.epubSplitLoop nf ex ts doc outdir ".epub" ev 0 [] chs).1
                (EpubProcessor.epubSplitLoop nf ex ts doc outdir ".epub" ev 0 [] chs).2 true) := by
            simp [EpubProcessor.split_epub_by_chapters, SplitSettings.get_output_extension,
              SplitSettings.requires_format_conversion, hft]
          rw [h2] at hout
          injection hout with h3
          rw [← h3]

namespace PdfProcessor

/-- A node of the raw PyPDF2 outline object graph.  Python objects live on a
heap and may alias or form cycles, so nodes are addressed by identity
(`Nat`) through a heap function instead of an inductive tree: `entry` is an
item with `title` and `page` attributes (the page already resolved by
`_safe_get_page_number`; 0 when unresolvable), `group` a Python list of
children, `other` an item of neither shape (which the code ignores). -/
inductive OutlineNode where
  | entry (title : String) (page : Int)
  | group (children : List Nat)
  | other
deriving DecidableEq, Repr

mutual

/-- Mirrors the recursion of `process_outline_item`
(`src/processors/pdf_processor.py`, lines 159-189) over an object heap `g`,
with explicit fuel: the Python function recurses into every child of a list
item with *no* visited-node guard and no depth bound, so exhaustion of every
fuel (`none` for all `fuel`) models non-termination.  An `entry` with a
positive resolved page yields one title/page pair. -/
def traverseOutline (g : Nat → OutlineNode) : Nat → Nat → Option (List (String × Int))
  | 0, _ => none
  | fuel + 1, i =>
      match g i with
      | OutlineNode.entry t p => some (if 0 < p then [(t, p)] else [])
      | OutlineNode.group cs => traverseOutlineKids g fuel cs
      | OutlineNode.other => some []
termination_by fuel _i => (fuel, 0)

/-- The `for subitem in item` loop of `process_outline_item`. -/
def traverseOutlineKids (g : Nat → OutlineNode) : Nat → List Nat → Option (List (String × Int))
  | _, [] => some []
  | fuel, c :: cs =>
      match traverseOutline g fuel c with
      | none => none
      | some l =>
          match traverseOutlineKids g fuel cs with
          | none => none
          | some ls => some (l ++ ls)
termination_by fuel cs => (fuel, cs.length + 1)

end

end PdfProcessor

namespace EpubProcessor

/-- A node of the raw `book.toc` object graph of `ebooklib`, addressed by
identity like `OutlineNode`: `linkPair` a `(Link, title)` tuple,
`sectionNode` a `(Section, children)` tuple, `link` a bare `Link` object,
`listNode` a bare list of entries, `other` anything else (ignored). -/
inductive TocNode where
  | linkPair (href title : String)
  | sectionNode (children : List Nat)
  | link (href title : String)
  | listNode (children : List Nat)
  | other
deriving DecidableEq, Repr

mutual

/-- Mirrors the recursion of `process_toc_item`
(`src/processors/epub_processor.py`, lines 165-198), again unguarded and
fuel-instrumented; link-shaped nodes yield one href/title pair. -/
def traverseToc (g : Nat → TocNode) : Nat → Nat → Option (List (String × String))
  | 0, _ => none
  | fuel + 1, i =>
      match g i with
      | TocNode.linkPair h t => some [(h, t)]
      | TocNode.sectionNode cs => traverseTocKids g fuel cs
      | TocNode.link h t => some [(h, t)]
      | TocNode.listNode cs => traverseTocKids g fuel cs
      | TocNode.other => some []
termination_by fuel _i => (fuel, 0)

/-- The child loops of `process_toc_item`. -/
def traverseTocKids (g : Nat → TocNode) : Nat → List Nat → Option (List (String × String))
  | _, [] => some []
  | fuel, c :: cs =>
      match traverseToc g fuel c with
      | none => none
      | some l =>
          match traverseTocKids g fuel cs with
          | none => none
          | some ls => some (l ++ ls)
termination_by fuel cs => (fuel, cs.length + 1)

end

end EpubProcessor

/-- A PDF outline heap with a self-referential list — a one-node cycle. -/
def cyclicOutline : Nat → PdfProcessor.OutlineNode :=
  fun _ => PdfProcessor.OutlineNode.group [0]

/-- An EPUB TOC heap with a self-referential list. -/
def cyclicToc : Nat → EpubProcessor.TocNode :=
  fun _ => EpubProcessor.TocNode.listNode [0]

theorem cyclicOutline_diverges (fuel : Nat) :
    PdfProcessor.traverseOutline cyclicOutline fuel 0 = none := by
  induction fuel with
  | zero => simp [PdfProcessor.traverseOutline]
  | succ f ih =>
    simp [PdfProcessor.traverseOutline, PdfProcessor.traverseOutlineKids, cyclicOutline, ih]

theorem cyclicToc_diverges (fuel : Nat) :
    EpubProcessor.traverseToc cyclicToc fuel 0 = none := by
  induction fuel with
  | zero => simp [EpubProcessor.traverseToc]
  | succ f ih =>
    simp [EpubProcessor.traverseToc, EpubProcessor.traverseTocKids, cyclicToc, ih]

/-- C7 (corrected): the structural-tier traversals are *not* iterative and
carry *no* visited-node guard — on a cyclic structure the recursion never
finishes (no amount of fuel suffices), for the PDF outline and the EPUB TOC
alike.  (In CPython the unbounded recursion is cut off by the interpreter's
recursion limit surfacing as a `RecursionError` in the per-item handler, not
by any guard in this code.) -/
theorem C7_counterexample :
    (¬ ∃ fuel, (PdfProcessor.traverseOutline cyclicOutline fuel 0).isSome = true) ∧
      (¬ ∃ fuel, (EpubProcessor.traverseToc cyclicToc fuel 0).isSome = true) := by
  constructor
  · rintro ⟨fuel, h⟩
    rw [cyclicOutline_diverges fuel] at h
    exact absurd h (by simp)
  · rintro ⟨fuel, h⟩
    rw [cyclicToc_diverges fuel] at h
    exact absurd h (by simp)

theorem traverseOutlineKids_isSome (g : Nat → PdfProcessor.OutlineNode) (f : Nat) :
    ∀ cs, (∀ c ∈ cs, (PdfProcessor.traverseOutline g f c).isSome = true) →
      (PdfProcessor.traverseOutlineKids g f cs).isSome = true := by
  intro cs
  induction cs with
  | nil => intro _; simp [PdfProcessor.traverseOutlineKids]
  | cons c cs ih =>
    intro h
    have hc := h c (by simp)
    obtain ⟨l, hl⟩ := Option.isSome_iff_exists.mp hc
    have hcs := ih (fun d hd => h d (by simp [hd]))
    obtain ⟨ls, hls⟩ := Option.isSome_iff_exists.mp hcs
    simp [PdfProcessor.traverseOutlineKids, hl, hls]

theorem traverseTocKids_isSome (g : Nat → EpubProcessor.TocNode) (f : Nat) :
    ∀ cs, (∀ c ∈ cs, (EpubProcessor.traverseToc g f c).isSome = true) →
      (EpubProcessor.traverseTocKids g f cs).isSome = true := by
  intro cs
  induction cs with
  | nil => intro _; simp [EpubProcessor.traverseTocKids]
  | cons c cs ih =>
    intro h
    have hc := h c (by simp)
    obtain ⟨l, hl⟩ := Option.isSome_iff_exists.mp hc
    have hcs := ih (fun d hd => h d (by simp [hd]))
    obtain ⟨ls, hls⟩ := Option.isSome_iff_exists.mp hcs
    simp [EpubProcessor.traverseTocKids, hl, hls]

/-- C7 (amended): the traversals are plain unguarded recursions.  They do
terminate on every *acyclic* structure — witnessed by any measure that
decreases from a list node to its children — with fuel beyond the measure of
the root; on cyclic structures they do not terminate (see the
counterexample). -/
theorem C7_traversal_terminates (g : Nat → PdfProcessor.OutlineNode) (m : Nat → Nat)
    (hm : ∀ i cs, g i = PdfProcessor.OutlineNode.group cs → ∀ c ∈ cs, m c < m i)
    (tg : Nat → EpubProcessor.TocNode) (tm : Nat → Nat)
    (htm : ∀ i cs, (tg i = EpubProcessor.TocNode.sectionNode cs ∨
        tg i = EpubProcessor.TocNode.listNode cs) → ∀ c ∈ cs, tm c < tm i) :
    (∀ fuel i, m i < fuel → (PdfProcessor.traverseOutline g fuel i).isSome = true) ∧
      (∀ fuel i, tm i < fuel → (EpubProcessor.traverseToc tg fuel i).isSome = true) := by
  constructor
  · intro fuel
    induction fuel with
    | zero => intro i h; omega
    | succ f ih =>
      intro i hi
      cases hg : g i with
      | entry t p => simp [PdfProcessor.traverseOutline, hg]
      | other => simp [PdfProcessor.traverseOutline, hg]
      | group cs =>
        have h := traverseOutlineKids_isSome g f cs
          (fun c hc => ih c (by have := hm i cs hg c hc; omega))
        simp [PdfProcessor.traverseOutline, hg, h]
  · intro fuel
    induction fuel with
    | zero => intro i h; omega
    | succ f ih =>
      intro i hi
      cases hg : tg i with
      | linkPair h t => simp [EpubProcessor.traverseToc, hg]
      | link h t => simp [EpubProcessor.traverseToc, hg]
      | other => simp [EpubProcessor.traverseToc, hg]
      | sectionNode cs =>
        have h := traverseTocKids_isSome tg f cs
          (fun c hc => ih c (by have := htm i cs (Or.inl hg) c hc; omega))
        simp [EpubProcessor.traverseToc, hg, h]
      | listNode cs =>
        have h := traverseTocKids_isSome tg f cs
          (fun c hc => ih c (by have := htm i cs (Or.inr hg) c hc; omega))
        simp [EpubProcessor.traverseToc, hg, h]

/-- A small acyclic outline heap: a root list with two bookmark entries. -/
def outlineDemo : Nat → PdfProcessor.OutlineNode
  | 0 => PdfProcessor.OutlineNode.group [1, 2]
  | 1 => PdfProcessor.OutlineNode.entry "A" 1
  | 2 => PdfProcessor.OutlineNode.entry "B" 10
  | _ + 3 => PdfProcessor.OutlineNode.other

/-- Depth measure for `outlineDemo`. -/
def outlineDemoMeasure : Nat → Nat
  | 0 => 1
  | _ + 1 => 0

/-- A small acyclic TOC heap: a root list with a link and a nested section. -/
def tocDemo : Nat → EpubProcessor.TocNode
  | 0 => EpubProcessor.TocNode.listNode [1, 2]
  | 1 => EpubProcessor.TocNode.link "ch1.xhtml" "One"
  | 2 => EpubProcessor.TocNode.sectionNode [3]
  | 3 => EpubProcessor.TocNode.linkPair "ch2.xhtml" "Two"
  | _ + 4 => EpubProcessor.TocNode.other

/-- Depth measure for `tocDemo`. -/
def tocDemoMeasure : Nat → Nat
  | 0 => 2
  | 2 => 1
  | _ => 0

/-- Witness for C7 on concrete acyclic structures: fuel 3 suffices for both
demo heaps. -/
theorem C7_traversal_terminates_witness :
    (PdfProcessor.traverseOutline outlineDemo 3 0).isSome = true ∧
      (EpubProcessor.traverseToc tocDemo 3 0).isSome = true := by
  have h := C7_traversal_terminates outlineDemo outlineDemoMeasure
    (by
      intro i cs hg c hc
      match i with
      | 0 =>
        simp only [outlineDemo, PdfProcessor.OutlineNode.group.injEq] at hg
        subst hg
        fin_cases hc <;> decide
      | 1 => simp [outlineDemo] at hg
      | 2 => simp [outlineDemo] at hg
      | n + 3 => simp [outlineDemo] at hg)
    tocDemo tocDemoMeasure
    (by
      intro i cs hg c hc
      match i with
      | 0 =>
        rcases hg with hg | hg
        · simp [tocDemo] at hg
        · simp only [tocDemo, EpubProcessor.TocNode.listNode.injEq] at hg
          subst hg
          fin_cases hc <;> decide
      | 1 => rcases hg with hg | hg <;> simp [tocDemo] at hg
      | 2 =>
        rcases hg with hg | hg
        · simp only [tocDemo, EpubProcessor.TocNode.sectionNode.injEq] at hg
          subst hg
          fin_cases hc
          decide
        · simp [tocDemo] at hg
      | 3 => rcases hg with hg | hg <;> simp [tocDemo] at hg
      | n + 4 => rcases hg with hg | hg <;> simp [tocDemo] at hg)
  exact ⟨h.1 3 0 (by decide), h.2 3 0 (by decide)⟩

theorem takeWhile_append_stop (q : Char → Bool) (a : List Char) (c : Char) (b : List Char)
    (ha : ∀ x ∈ a, q x = true) (hc : q c = false) :
    (a ++ c :: b).takeWhile q = a := by
  induction a with
  | nil => simp [List.takeWhile_cons, hc]
  | cons x xs ih =>
    have hx : q x = true := ha x (by simp)
    simp only [List.cons_append, List.takeWhile_cons, hx, if_true]
    rw [ih (fun y hy => ha y (by simp [hy]))]

theorem bne_dot_eq_true {c : Char} (h : c ≠ '.') : (c != '.') = true := by
  simpa using h

theorem pySplitExt_nodot (l : List Char) (h : ('.' : Char) ∉ l) :
    pySplitExt l = (l, []) := by
  unfold pySplitExt
  have hall : l.reverse.takeWhile (fun c => c != '.') = l.reverse := by
    rw [List.takeWhile_eq_self_iff]
    intro x hx
    exact bne_dot_eq_true (fun hxe => h (hxe ▸ (List.mem_reverse).mp hx))
  rw [hall]
  simp

theorem pySplitExt_eq_split (s e : List Char) (he : ('.' : Char) ∉ e) (hs : s ≠ [])
    (hne : e ≠ []) :
    pySplitExt (s ++ '.' :: e) = (s, '.' :: e) := by
  unfold pySplitExt
  have hrev : (s ++ '.' :: e).reverse = e.reverse ++ '.' :: s.reverse := by
    simp
  have htake : (s ++ '.' :: e).reverse.takeWhile (fun c => c != '.') = e.reverse := by
    rw [hrev]
    exact takeWhile_append_stop _ _ _ _
      (fun x hx => bne_dot_eq_true (fun hxe => he (hxe ▸ (List.mem_reverse).mp hx)))
      (by simp)
  rw [htake]
  have hlen : (s ++ '.' :: e).length = s.length + 1 + e.length := by
    simp; omega
  have hcond : e.reverse.length + 1 < (s ++ '.' :: e).length ∧ 0 < e.reverse.length := by
    rw [hlen, List.length_reverse]
    constructor
    · have : 0 < s.length := List.length_pos.mpr hs
      omega
    · exact List.length_pos.mpr hne
  rw [if_pos hcond]
  have hidx : (s ++ '.' :: e).length - 1 - e.reverse.length = s.length := by
    rw [hlen, List.length_reverse]
    omega
  rw [hidx, List.take_left, List.drop_left]

theorem pySplitExt_trailing_dot (s : List Char) :
    pySplitExt (s ++ ['.']) = (s ++ ['.'], []) := by
  unfold pySplitExt
  have htake : (s ++ ['.']).reverse.takeWhile (fun c => c != '.') = [] := by
    simp
  rw [htake]
  simp

theorem pySplitExt_head_dot (e : List Char) (he : ('.' : Char) ∉ e) :
    pySplitExt ('.' :: e) = ('.' :: e, []) := by
  unfold pySplitExt
  have htake : ('.' :: e).reverse.takeWhile (fun c => c != '.') = e.reverse := by
    rw [List.reverse_cons]
    cases h : e.reverse with
    | nil => simp at h; simp [h]
    | cons x xs =>
      rw [← h]
      exact takeWhile_append_stop _ _ _ _
        (fun x hx => bne_dot_eq_true (fun hxe => he (hxe ▸ (List.mem_reverse).mp hx)))
        (by simp)
  rw [htake]
  have : ¬ (e.reverse.length + 1 < ('.' :: e).length ∧ 0 < e.reverse.length) := by
    simp only [List.length_reverse, List.length_cons]
    omega
  rw [if_neg this]

theorem pySplitExt_append (l : List Char) :
    (pySplitExt l).1 ++ (pySplitExt l).2 = l := by
  unfold pySplitExt
  dsimp only
  split
  · exact List.take_append_drop _ l
  · simp

theorem pySplitExt_length (l : List Char) :
    (pySplitExt l).1.length + (pySplitExt l).2.length = l.length := by
  have h := congrArg List.length (pySplitExt_append l)
  simpa using h

/-- Every character list is dot-free or splits off a maximal dot-free tail
after a last dot. -/
theorem dot_decomp (l : List Char) :
    ('.' : Char) ∉ l ∨ ∃ s e, l = s ++ '.' :: e ∧ ('.' : Char) ∉ e := by
  induction l with
  | nil => left; simp
  | cons c l' ih =>
    cases ih with
    | inl h =>
      by_cases hc : c = '.'
      · right
        exact ⟨[], l', by simp [hc], h⟩
      · left
        simp only [List.mem_cons, not_or]
        exact ⟨fun hh => hc hh.symm, h⟩
    | inr h =>
      obtain ⟨s, e, hl, he⟩ := h
      right
      exact ⟨c :: s, e, by simp [hl], he⟩

/-- Shape of the suffix component: empty, or a dot followed by a non-empty
dot-free tail. -/
theorem pySplitExt_snd_shape (l : List Char) :
    (pySplitExt l).2 = [] ∨
      ∃ mid, (pySplitExt l).2 = '.' :: mid ∧ ('.' : Char) ∉ mid ∧ mid ≠ [] := by
  cases dot_decomp l with
  | inl h => left; rw [pySplitExt_nodot l h]
  | inr h =>
    obtain ⟨s, e, rfl, he⟩ := h
    by_cases hs : s = []
    · left
      subst hs
      simpa using congrArg Prod.snd (pySplitExt_head_dot e he)
    · by_cases hne : e = []
      · left
        subst hne
        simpa using congrArg Prod.snd (pySplitExt_trailing_dot s)
      · right
        exact ⟨e, by rw [pySplitExt_eq_split s e he hs hne], he, hne⟩

theorem mapFixed (f : Char → Char) (m : List Char) (h : ∀ c ∈ m, f c = c) :
    m.map f = m := by
  induction m with
  | nil => rfl
  | cons c cs ih =>
    simp only [List.map_cons, h c (by simp), ih (fun d hd => h d (by simp [hd]))]

theorem collapseAux_mem (p : Char → Bool) (r : Char) :
    ∀ st s c, c ∈ FileUtils.collapseRunsAux p r st s → c ∈ s ∨ c = r := by
  intro st s
  induction s generalizing st with
  | nil => intro c hc; simp [FileUtils.collapseRunsAux] at hc
  | cons x xs ih =>
    intro c hc
    unfold FileUtils.collapseRunsAux at hc
    by_cases hp : p x = true
    · rw [if_pos hp] at hc
      cases st with
      | true =>
        rw [if_pos rfl] at hc
        rcases ih true c hc with h | h
        · exact Or.inl (by simp [h])
        · exact Or.inr h
      | false =>
        rw [if_neg (by simp)] at hc
        rcases List.mem_cons.mp hc with h | h
        · exact Or.inr h
        · rcases ih true c h with h2 | h2
          · exact Or.inl (by simp [h2])
          · exact Or.inr h2
    · rw [if_neg hp] at hc
      rcases List.mem_cons.mp hc with h | h
      · exact Or.inl (by simp [h])
      · rcases ih false c h with h2 | h2
        · exact Or.inl (by simp [h2])
        · exact Or.inr h2

theorem collapseAux_true_head (p : Char → Bool) (r : Char) :
    ∀ s c, (FileUtils.collapseRunsAux p r true s).head? = some c → p c = false := by
  intro s
  induction s with
  | nil => intro c hc; simp [FileUtils.collapseRunsAux] at hc
  | cons x xs ih =>
    intro c hc
    unfold FileUtils.collapseRunsAux at hc
    by_cases hp : p x = true
    · rw [if_pos hp, if_pos rfl] at hc
      exact ih c hc
    · rw [if_neg hp] at hc
      simp only [List.head?_cons, Option.some_inj] at hc
      subst hc
      simpa using hp

theorem collapseAux_false_head (p : Char → Bool) (r : Char) :
    ∀ s, (FileUtils.collapseRunsAux p r false s).head? = s.head? ∨
      (FileUtils.collapseRunsAux p r false s).head? = some r := by
  intro s
  cases s with
  | nil => left; rfl
  | cons x xs =>
    unfold FileUtils.collapseRunsAux
    by_cases hp : p x = true
    · rw [if_pos hp, if_neg (by simp)]
      right
      simp
    · rw [if_neg hp]
      left
      simp

theorem collapseAux_chain_out (p : Char → Bool) (r : Char) :
    ∀ st s, List.Chain' (fun a b => ¬(p a = true ∧ p b = true))
      (FileUtils.collapseRunsAux p r st s) := by
  intro st s
  induction s generalizing st with
  | nil => simp [FileUtils.collapseRunsAux]
  | cons x xs ih =>
    unfold FileUtils.collapseRunsAux
    by_cases hp : p x = true
    · rw [if_pos hp]
      cases st with
      | true =>
        rw [if_pos rfl]
        exact ih true
      | false =>
        rw [if_neg (by simp)]
        rw [List.chain'_cons']
        refine ⟨?_, ih true⟩
        intro y hy
        have := collapseAux_true_head p r xs y hy
        simp [this]
    · rw [if_neg hp]
      rw [List.chain'_cons']
      refine ⟨?_, ih false⟩
      intro y hy
      simp [hp]

theorem collapseAux_chain_preserve (p : Char → Bool) (r : Char)
    (R : Char → Char → Prop) (hr : ∀ a, R a r ∧ R r a) :
    ∀ st s, List.Chain' R s → List.Chain' R (FileUtils.collapseRunsAux p r st s) := by
  intro st s
  induction s generalizing st with
  | nil => intro _; simp [FileUtils.collapseRunsAux]
  | cons x xs ih =>
    intro h
    unfold FileUtils.collapseRunsAux
    by_cases hp : p x = true
    · rw [if_pos hp]
      cases st with
      | true =>
        rw [if_pos rfl]
        exact ih true h.tail
      | false =>
        rw [if_neg (by simp)]
        rw [List.chain'_cons']
        exact ⟨fun y _ => (hr y).2, ih true h.tail⟩
    · rw [if_neg hp]
      rw [List.chain'_cons']
      refine ⟨?_, ih false h.tail⟩
      intro y hy
      rcases collapseAux_false_head p r xs with hh | hh
      · rw [hh] at hy
        exact (List.chain'_cons'.mp h).1 y hy
      · rw [hh] at hy
        simp only [Option.mem_def, Option.some_inj] at hy
        subst hy
        exact (hr x).1

theorem collapseAux_fixed (p : Char → Bool) (r : Char) :
    ∀ s, (∀ c ∈ s, p c = true → c = r) →
      List.Chain' (fun a b => ¬(p a = true ∧ p b = true)) s →
      (FileUtils.collapseRunsAux p r false s = s ∧
        ((∀ c, s.head? = some c → p c = false) →
          FileUtils.collapseRunsAux p r true s = s)) := by
  intro s
  induction s with
  | nil => intro _ _; exact ⟨rfl, fun _ => rfl⟩
  | cons x xs ih =>
    intro hall hch
    have ih2 := ih (fun d hd hp => hall d (by simp [hd]) hp) hch.tail
    constructor
    · unfold FileUtils.collapseRunsAux
      by_cases hp : p x = true
      · rw [if_pos hp, if_neg (by simp)]
        have hx : x = r := hall x (by simp) hp
        have hxs : FileUtils.collapseRunsAux p r true xs = xs := by
          refine ih2.2 ?_
          intro c hc
          have := (List.chain'_cons'.mp hch).1 c hc
          rw [hp] at this
          by_cases hpc : p c = true
          · exact absurd ⟨rfl, hpc⟩ this
          · simpa using hpc
        rw [hxs, hx]
      · rw [if_neg hp, ih2.1]
    · intro hhead
      have hpx : p x = false := hhead x rfl
      unfold FileUtils.collapseRunsAux
      rw [if_neg (by simp [hpx]), ih2.1]

theorem dropWhile_head_not (p : Char → Bool) :
    ∀ (l : List Char) (c : Char), (l.dropWhile p).head? = some c → p c = false := by
  intro l
  induction l with
  | nil => intro c hc; simp at hc
  | cons x xs ih =>
    intro c hc
    by_cases hp : p x = true
    · rw [List.dropWhile_cons, if_pos hp] at hc
      exact ih c hc
    · rw [List.dropWhile_cons, if_neg hp] at hc
      simp only [List.head?_cons, Option.some_inj] at hc
      subst hc
      simpa using hp

theorem dropWhile_fixedL (p : Char → Bool) (l : List Char)
    (h : ∀ c, l.head? = some c → p c = false) : l.dropWhile p = l := by
  cases l with
  | nil => rfl
  | cons x xs =>
    have := h x rfl
    rw [List.dropWhile_cons, if_neg (by simp [this])]

theorem dropWhile_getLast_of_ne_nil (p : Char → Bool) (l : List Char)
    (h : l.dropWhile p ≠ []) : (l.dropWhile p).getLast? = l.getLast? := by
  obtain ⟨t, ht⟩ := List.dropWhile_suffix (l := l) p
  conv_rhs => rw [← ht]
  rw [List.getLast?_append]
  cases hg : (l.dropWhile p).getLast? with
  | none => exact absurd (List.getLast?_eq_none_iff.mp hg) h
  | some c => rfl

theorem stripEnds_sublist (p : Char → Bool) (l : List Char) :
    (FileUtils.stripEnds p l).Sublist l := by
  unfold FileUtils.stripEnds
  have h1 : (FileUtils.stripEnds p l).Sublist (l.dropWhile p) := by
    unfold FileUtils.stripEnds
    have h2 := (List.dropWhile_suffix (l := (l.dropWhile p).reverse) p).sublist
    have h3 := h2.reverse
    simpa using h3
  exact h1.trans (List.dropWhile_suffix p).sublist

theorem stripEnds_mem (p : Char → Bool) (l : List Char) (c : Char)
    (h : c ∈ FileUtils.stripEnds p l) : c ∈ l :=
  (stripEnds_sublist p l).subset h

theorem stripEnds_head_not (p : Char → Bool) (l : List Char) (c : Char)
    (h : (FileUtils.stripEnds p l).head? = some c) : p c = false := by
  unfold FileUtils.stripEnds at h
  rw [List.head?_reverse] at h
  have hne : ((l.dropWhile p).reverse.dropWhile p) ≠ [] := by
    intro he
    rw [he] at h
    simp at h
  rw [dropWhile_getLast_of_ne_nil p _ hne, List.getLast?_reverse] at h
  exact dropWhile_head_not p _ c h

theorem stripEnds_last_not (p : Char → Bool) (l : List Char) (c : Char)
    (h : (FileUtils.stripEnds p l).getLast? = some c) : p c = false := by
  unfold FileUtils.stripEnds at h
  rw [List.getLast?_reverse] at h
  exact dropWhile_head_not p _ c h

theorem stripEnds_fixed (p : Char → Bool) (l : List Char)
    (hh : ∀ c, l.head? = some c → p c = false)
    (hl : ∀ c, l.getLast? = some c → p c = false) :
    FileUtils.stripEnds p l = l := by
  unfold FileUtils.stripEnds
  rw [dropWhile_fixedL p l hh]
  rw [dropWhile_fixedL p l.reverse (fun c hc => hl c (by rwa [List.head?_reverse] at hc))]
  exact List.reverse_reverse l

theorem chain'_stripEnds (p : Char → Bool) (R : Char → Char → Prop)
    (hsym : ∀ a b, R a b → R b a) (l : List Char) (h : List.Chain' R l) :
    List.Chain' R (FileUtils.stripEnds p l) := by
  unfold FileUtils.stripEnds
  have h1 : List.Chain' R (l.dropWhile p) := h.suffix (List.dropWhile_suffix p)
  have h2 : List.Chain' R (l.dropWhile p).reverse := by
    rw [List.chain'_reverse]
    exact h1.imp (fun a b hab => hsym a b hab)
  have h3 : List.Chain' R ((l.dropWhile p).reverse.dropWhile p) :=
    h2.suffix (List.dropWhile_suffix p)
  rw [List.chain'_reverse]
  exact h3.imp (fun a b hab => hsym a b hab)

theorem lengthFix_of_le (l : List Char) (h : l.length ≤ 255) :
    FileUtils.lengthFix l = l := by
  unfold FileUtils.lengthFix
  rw [if_neg (by omega)]

theorem lengthFix_idem (g : List Char) :
    FileUtils.lengthFix (FileUtils.lengthFix g) = FileUtils.lengthFix g := by
  by_cases hlen : 255 < g.length
  · by_cases hmax : (0 : Int) < 255 - ((pySplitExt g).2.length : Int) - 10
    · have hout : FileUtils.lengthFix g =
          (pySplitExt g).1.take (255 - ((pySplitExt g).2.length : Int) - 10).toNat ++
            ('.' :: '.' :: '.' :: (pySplitExt g).2) := by
        unfold FileUtils.lengthFix
        rw [if_pos hlen, if_pos hmax]
      have hextlt : (pySplitExt g).2.length < 245 := by omega
      have htoNat : ((255 : Int) - ((pySplitExt g).2.length : Int) - 10).toNat =
          245 - (pySplitExt g).2.length := by omega
      have hlen2 : (FileUtils.lengthFix g).length ≤ 255 := by
        rw [hout]
        have hm := Nat.min_le_left
          ((255 - ((pySplitExt g).2.length : Int) - 10).toNat) ((pySplitExt g).1.length)
        simp only [List.length_append, List.length_take, List.length_cons]
        omega
      rw [lengthFix_of_le _ hlen2]
    · have hextge : 245 ≤ (pySplitExt g).2.length := by omega
      have hout : FileUtils.lengthFix g = "truncated".toList ++ (pySplitExt g).2 := by
        unfold FileUtils.lengthFix
        rw [if_pos hlen, if_neg hmax]
      rcases pySplitExt_snd_shape g with h0 | hsh
      · rw [h0] at hextge
        simp at hextge
      · obtain ⟨mid, hm, hmd, hmn⟩ := hsh
        by_cases h255 : ("truncated".toList ++ (pySplitExt g).2).length ≤ 255
        · rw [hout, lengthFix_of_le _ h255]
        · rw [hout, hm]
          have hgt : 255 < ("truncated".toList ++ '.' :: mid).length := by
            rw [hm] at h255
            omega
          have hsplit := pySplitExt_eq_split "truncated".toList mid hmd (by decide) hmn
          unfold FileUtils.lengthFix
          rw [if_pos hgt, hsplit]
          have hneg : ¬ (0 : Int) < 255 - ((('.' :: mid).length : Nat) : Int) - 10 := by
            rw [hm] at hextge
            simp only [List.length_cons]
            simp only [List.length_cons] at hextge
            omega
          rw [if_neg hneg]
  · have h1 : FileUtils.lengthFix g = g := lengthFix_of_le g (by omega)
    rw [h1, h1]

theorem getLast_append_of_ne_nil (a x : List Char) (hx : x ≠ []) :
    (a ++ x).getLast? = x.getLast? := by
  rw [List.getLast?_append]
  cases hg : x.getLast? with
  | none => exact absurd (List.getLast?_eq_none_iff.mp hg) hx
  | some c => rfl

theorem head_append_of_ne_nil (a b : List Char) (ha : a ≠ []) :
    (a ++ b).head? = a.head? := by
  cases a with
  | nil => exact absurd rfl ha
  | cons x xs => rfl

theorem take_head_of_pos (k : Nat) (l : List Char) (hk : 0 < k) :
    (l.take k).head? = l.head? := by
  cases l with
  | nil => simp
  | cons x xs =>
    cases k with
    | zero => omega
    | succ n => rfl

theorem cons_getLast_of_ne_nil (a : Char) (l : List Char) (hl : l ≠ []) :
    (a :: l).getLast? = l.getLast? := by
  cases l with
  | nil => exact absurd rfl hl
  | cons x xs => exact List.getLast?_cons_cons

theorem take_ne_nil_of_pos (k : Nat) (l : List Char) (hk : 0 < k) (hl : l ≠ []) :
    l.take k ≠ [] := by
  cases l with
  | nil => exact absurd rfl hl
  | cons x xs =>
    cases k with
    | zero => omega
    | succ n => simp

theorem ctrl_subset_ws (c : Char) (h : FileUtils.isCtrlWs c = true) :
    FileUtils.isPySpace c = true := by
  unfold FileUtils.isCtrlWs at h
  rcases Bool.or_eq_true_iff.mp h with h1 | h1
  · rcases Bool.or_eq_true_iff.mp h1 with h2 | h2
    · rcases Bool.or_eq_true_iff.mp h2 with h3 | h3
      · rcases Bool.or_eq_true_iff.mp h3 with h4 | h4
        · rw [show c = '\n' from by simpa using h4]; decide
        · rw [show c = '\r' from by simpa using h4]; decide
      · rw [show c = '\t' from by simpa using h3]; decide
    · rw [show c = '\x0c' from by simpa using h2]; decide
  · rw [show c = '\x0b' from by simpa using h1]; decide

theorem isUnd_eq (c : Char) (h : FileUtils.isUnd c = true) : c = '_' := by
  unfold FileUtils.isUnd at h
  simpa using h

theorem isUndSpace_false_iff (c : Char) :
    FileUtils.isUndSpace c = false ↔ (c ≠ '_' ∧ c ≠ ' ') := by
  unfold FileUtils.isUndSpace
  constructor
  · intro h
    rcases Bool.or_eq_false_iff.mp h with ⟨h1, h2⟩
    exact ⟨by simpa using h1, by simpa using h2⟩
  · intro ⟨h1, h2⟩
    rw [Bool.or_eq_false_iff]
    exact ⟨by simpa using h1, by simpa using h2⟩

theorem isDotSpace_false_iff (c : Char) :
    FileUtils.isDotSpace c = false ↔ (c ≠ ' ' ∧ c ≠ '.') := by
  unfold FileUtils.isDotSpace
  constructor
  · intro h
    rcases Bool.or_eq_false_iff.mp h with ⟨h1, h2⟩
    exact ⟨by simpa using h1, by simpa using h2⟩
  · intro ⟨h1, h2⟩
    rw [Bool.or_eq_false_iff]
    exact ⟨by simpa using h1, by simpa using h2⟩

theorem reserved_mem_of_stem (w : List Char) (h : FileUtils.isReservedStem w = true) :
    String.mk ((pySplitExt w).1.map FileUtils.asciiUpperChar) ∈ FileUtils.RESERVED_NAMES := by
  unfold FileUtils.isReservedStem at h
  exact List.elem_iff.mp h

theorem reserved_props (s : String) (h : s ∈ FileUtils.RESERVED_NAMES) :
    s.toList.length ≤ 4 ∧ s.toList.head? ≠ some '.' ∧ s.toList.getLast? ≠ some '.' := by
  fin_cases h <;> decide

/-- Invariants satisfied by every output of the `sanitizeSteps` pipeline;
exactly what is needed to show that a second pass fixes the output (away
from the leading/trailing-period corner where idempotence genuinely
fails). -/
structure SanOut (m : List Char) : Prop where
  onlyWs : ∀ c ∈ m, FileUtils.isPySpace c = true → c = ' '
  chainWs : List.Chain'
    (fun a b => ¬(FileUtils.isPySpace a = true ∧ FileUtils.isPySpace b = true)) m
  noInvalid : ∀ c ∈ m, FileUtils.isInvalidChar c = false
  chainUnd : List.Chain'
    (fun a b => ¬(FileUtils.isUnd a = true ∧ FileUtils.isUnd b = true)) m
  headSpace : m.head? ≠ some ' '
  lastSpace : m.getLast? ≠ some ' '
  lastUnd : m.getLast? ≠ some '_'
  reservedCase : (∃ w, m = '_' :: w ∧ w.head? ≠ some '_' ∧ w.head? ≠ some ' ' ∧
      FileUtils.isReservedStem w = true) ∨
    (m.head? ≠ some '_' ∧ FileUtils.isReservedStem m = false)
  lenFixed : FileUtils.lengthFix m = m

theorem collapseAux_out_p (p : Char → Bool) (r : Char) :
    ∀ st s c, c ∈ FileUtils.collapseRunsAux p r st s → p c = true → c = r := by
  intro st s
  induction s generalizing st with
  | nil => intro c hc _; simp [FileUtils.collapseRunsAux] at hc
  | cons x xs ih =>
    intro c hc hp
    unfold FileUtils.collapseRunsAux at hc
    by_cases hx : p x = true
    · rw [if_pos hx] at hc
      cases st with
      | true =>
        rw [if_pos rfl] at hc
        exact ih true c hc hp
      | false =>
        rw [if_neg (by simp)] at hc
        rcases List.mem_cons.mp hc with h | h
        · exact h
        · exact ih true c h hp
    · rw [if_neg hx] at hc
      rcases List.mem_cons.mp hc with h | h
      · rw [h] at hp
        exact absurd hp (by simp [hx])
      · exact ih false c h hp

/-- The pipeline of `sanitizeSteps` up to (and including) the
`strip(replacement + ' ')` stage, named so that its invariants can be
stated. -/
def FileUtils.sanStageF (l : List Char) : List Char :=
  FileUtils.stripEnds FileUtils.isUndSpace (FileUtils.collapseRuns FileUtils.isUnd '_'
    (FileUtils.invalidToUnd (FileUtils.stripEnds FileUtils.isDotSpace
      (FileUtils.collapseRuns FileUtils.isPySpace ' ' (FileUtils.ctrlToSpace l)))))

theorem sanitizeSteps_eq (l : List Char) :
    FileUtils.sanitizeSteps l =
      FileUtils.lengthFix (FileUtils.reservedFix (FileUtils.sanStageF l)) := rfl

theorem invalidToUnd_ws (c : Char)
    (h : FileUtils.isPySpace (if FileUtils.isInvalidChar c then '_' else c) = true) :
    FileUtils.isPySpace c = true := by
  by_cases hi : FileUtils.isInvalidChar c = true
  · rw [if_pos hi] at h
    exact absurd h (by decide)
  · rwa [if_neg hi] at h

theorem stageF_props (l : List Char) :
    (∀ c ∈ FileUtils.sanStageF l, FileUtils.isPySpace c = true → c = ' ') ∧
      List.Chain' (fun a b => ¬(FileUtils.isPySpace a = true ∧ FileUtils.isPySpace b = true))
        (FileUtils.sanStageF l) ∧
      (∀ c ∈ FileUtils.sanStageF l, FileUtils.isInvalidChar c = false) ∧
      List.Chain' (fun a b => ¬(FileUtils.isUnd a = true ∧ FileUtils.isUnd b = true))
        (FileUtils.sanStageF l) ∧
      (∀ c, (FileUtils.sanStageF l).head? = some c → FileUtils.isUndSpace c = false) ∧
      (∀ c, (FileUtils.sanStageF l).getLast? = some c → FileUtils.isUndSpace c = false) := by
  have hbw : ∀ c ∈ FileUtils.collapseRuns FileUtils.isPySpace ' ' (FileUtils.ctrlToSpace l),
      FileUtils.isPySpace c = true → c = ' ' :=
    fun c hc hw => collapseAux_out_p FileUtils.isPySpace ' ' false _ c hc hw
  have hbchain := collapseAux_chain_out FileUtils.isPySpace ' ' false (FileUtils.ctrlToSpace l)
  have hsymWs : ∀ a b : Char,
      ¬(FileUtils.isPySpace a = true ∧ FileUtils.isPySpace b = true) →
      ¬(FileUtils.isPySpace b = true ∧ FileUtils.isPySpace a = true) :=
    fun a b h hh => h ⟨hh.2, hh.1⟩
  have hsymUnd : ∀ a b : Char,
      ¬(FileUtils.isUnd a = true ∧ FileUtils.isUnd b = true) →
      ¬(FileUtils.isUnd b = true ∧ FileUtils.isUnd a = true) :=
    fun a b h hh => h ⟨hh.2, hh.1⟩
  have hcw : ∀ c ∈ FileUtils.stripEnds FileUtils.isDotSpace
      (FileUtils.collapseRuns FileUtils.isPySpace ' ' (FileUtils.ctrlToSpace l)),
      FileUtils.isPySpace c = true → c = ' ' :=
    fun c hc hw => hbw c (stripEnds_mem _ _ c hc) hw
  have hcchain := chain'_stripEnds FileUtils.isDotSpace _ hsymWs _ hbchain
  have hdw : ∀ c ∈ FileUtils.invalidToUnd (FileUtils.stripEnds FileUtils.isDotSpace
      (FileUtils.collapseRuns FileUtils.isPySpace ' ' (FileUtils.ctrlToSpace l))),
      FileUtils.isPySpace c = true → c = ' ' := by
    intro c hc hw
    obtain ⟨x, hx, rfl⟩ := List.mem_map.mp hc
    by_cases hi : FileUtils.isInvalidChar x = true
    · rw [if_pos hi] at hw ⊢
      exact absurd hw (by decide)
    · rw [if_neg hi] at hw ⊢
      exact hcw x hx hw
  have hdchain : List.Chain'
      (fun a b => ¬(FileUtils.isPySpace a = true ∧ FileUtils.isPySpace b = true))
      (FileUtils.invalidToUnd (FileUtils.stripEnds FileUtils.isDotSpace
        (FileUtils.collapseRuns FileUtils.isPySpace ' ' (FileUtils.ctrlToSpace l)))) := by
    unfold FileUtils.invalidToUnd
    rw [List.chain'_map]
    exact hcchain.imp (fun a b hab hh =>
      hab ⟨invalidToUnd_ws a hh.1, invalidToUnd_ws b hh.2⟩)
  have hdinv : ∀ c ∈ FileUtils.invalidToUnd (FileUtils.stripEnds FileUtils.isDotSpace
      (FileUtils.collapseRuns FileUtils.isPySpace ' ' (FileUtils.ctrlToSpace l))),
      FileUtils.isInvalidChar c = false := by
    intro c hc
    obtain ⟨x, hx, rfl⟩ := List.mem_map.mp hc
    by_cases hi : FileUtils.isInvalidChar x = true
    · rw [if_pos hi]
      decide
    · rw [if_neg hi]
      simpa using hi
  have hrUnd : ∀ a : Char,
      (¬(FileUtils.isPySpace a = true ∧ FileUtils.isPySpace '_' = true)) ∧
      (¬(FileUtils.isPySpace '_' = true ∧ FileUtils.isPySpace a = true)) := by
    intro a
    constructor
    · rintro ⟨_, h2⟩
      exact absurd h2 (by decide)
    · rintro ⟨h1, _⟩
      exact absurd h1 (by decide)
  have hew : ∀ c ∈ FileUtils.collapseRuns FileUtils.isUnd '_'
      (FileUtils.invalidToUnd (FileUtils.stripEnds FileUtils.isDotSpace
        (FileUtils.collapseRuns FileUtils.isPySpace ' ' (FileUtils.ctrlToSpace l)))),
      FileUtils.isPySpace c = true → c = ' ' := by
    intro c hc hw
    rcases collapseAux_mem FileUtils.isUnd '_' false _ c hc with h | h
    · exact hdw c h hw
    · rw [h] at hw
      exact absurd hw (by decide)
  have hechain := collapseAux_chain_preserve FileUtils.isUnd '_' _ hrUnd false _ hdchain
  have heinv : ∀ c ∈ FileUtils.collapseRuns FileUtils.isUnd '_'
      (FileUtils.invalidToUnd (FileUtils.stripEnds FileUtils.isDotSpace
        (FileUtils.collapseRuns FileUtils.isPySpace ' ' (FileUtils.ctrlToSpace l)))),
      FileUtils.isInvalidChar c = false := by
    intro c hc
    rcases collapseAux_mem FileUtils.isUnd '_' false _ c hc with h | h
    · exact hdinv c h
    · rw [h]
      decide
  have heund := collapseAux_chain_out FileUtils.isUnd '_' false
    (FileUtils.invalidToUnd (FileUtils.stripEnds FileUtils.isDotSpace
      (FileUtils.collapseRuns FileUtils.isPySpace ' ' (FileUtils.ctrlToSpace l))))
  refine ⟨?_, ?_, ?_, ?_, ?_, ?_⟩
  · exact fun c hc hw => hew c (stripEnds_mem _ _ c hc) hw
  · exact chain'_stripEnds FileUtils.isUndSpace _ hsymWs _ hechain
  · exact fun c hc => heinv c (stripEnds_mem _ _ c hc)
  · exact chain'_stripEnds FileUtils.isUndSpace _ hsymUnd _ heund
  · exact fun c hc => stripEnds_head_not FileUtils.isUndSpace _ c hc
  · exact fun c hc => stripEnds_last_not FileUtils.isUndSpace _ c hc

theorem isReservedStem_nil : FileUtils.isReservedStem [] = false := by decide

theorem stageG_props (l : List Char) :
    (∀ c ∈ FileUtils.reservedFix (FileUtils.sanStageF l),
        FileUtils.isPySpace c = true → c = ' ') ∧
      List.Chain' (fun a b => ¬(FileUtils.isPySpace a = true ∧ FileUtils.isPySpace b = true))
        (FileUtils.reservedFix (FileUtils.sanStageF l)) ∧
      (∀ c ∈ FileUtils.reservedFix (FileUtils.sanStageF l),
        FileUtils.isInvalidChar c = false) ∧
      List.Chain' (fun a b => ¬(FileUtils.isUnd a = true ∧ FileUtils.isUnd b = true))
        (FileUtils.reservedFix (FileUtils.sanStageF l)) ∧
      (FileUtils.reservedFix (FileUtils.sanStageF l)).head? ≠ some ' ' ∧
      (FileUtils.reservedFix (FileUtils.sanStageF l)).getLast? ≠ some ' ' ∧
      (FileUtils.reservedFix (FileUtils.sanStageF l)).getLast? ≠ some '_' ∧
      ((∃ w, FileUtils.reservedFix (FileUtils.sanStageF l) = '_' :: w ∧
          w.head? ≠ some '_' ∧ w.head? ≠ some ' ' ∧ FileUtils.isReservedStem w = true) ∨
        ((FileUtils.reservedFix (FileUtils.sanStageF l)).head? ≠ some '_' ∧
          FileUtils.isReservedStem (FileUtils.reservedFix (FileUtils.sanStageF l)) = false)) := by
  obtain ⟨hfw, hfchW, hfinv, hfchU, hfhead, hflast⟩ := stageF_props l
  unfold FileUtils.reservedFix
  by_cases hres : FileUtils.isReservedStem (FileUtils.sanStageF l) = true
  · rw [if_pos hres]
    have hfne : FileUtils.sanStageF l ≠ [] := by
      intro he
      rw [he] at hres
      exact absurd hres (by simp [isReservedStem_nil])
    have hglast : ('_' :: FileUtils.sanStageF l).getLast? = (FileUtils.sanStageF l).getLast? :=
      cons_getLast_of_ne_nil '_' _ hfne
    refine ⟨?_, ?_, ?_, ?_, ?_, ?_, ?_, ?_⟩
    · intro c hc hw
      rcases List.mem_cons.mp hc with h | h
      · rw [h] at hw
        exact absurd hw (by decide)
      · exact hfw c h hw
    · rw [List.chain'_cons']
      refine ⟨?_, hfchW⟩
      rintro y _ ⟨h1, _⟩
      exact absurd h1 (by decide)
    · intro c hc
      rcases List.mem_cons.mp hc with h | h
      · rw [h]
        decide
      · exact hfinv c h
    · rw [List.chain'_cons']
      refine ⟨?_, hfchU⟩
      rintro y hy ⟨_, h2⟩
      have := hfhead y hy
      rw [isUnd_eq y h2] at this
      exact absurd this (by decide)
    · simp
    · rw [hglast]
      intro h
      have := hflast ' ' h
      exact absurd this (by decide)
    · rw [hglast]
      intro h
      have := hflast '_' h
      exact absurd this (by decide)
    · left
      refine ⟨FileUtils.sanStageF l, rfl, ?_, ?_, hres⟩
      · intro h
        have := hfhead '_' h
        exact absurd this (by decide)
      · intro h
        have := hfhead ' ' h
        exact absurd this (by decide)
  · rw [if_neg hres]
    refine ⟨hfw, hfchW, hfinv, hfchU, ?_, ?_, ?_, ?_⟩
    · intro h
      have := hfhead ' ' h
      exact absurd this (by decide)
    · intro h
      have := hflast ' ' h
      exact absurd this (by decide)
    · intro h
      have := hflast '_' h
      exact absurd this (by decide)
    · right
      refine ⟨?_, by simpa using hres⟩
      intro h
      have := hfhead '_' h
      exact absurd this (by decide)

theorem toList_mk (x : List Char) : (String.mk x).toList = x := rfl

theorem not_reserved_of_stem_last_dot (m : List Char)
    (h : ((pySplitExt m).1).getLast? = some '.') :
    FileUtils.isReservedStem m = false := by
  by_contra hcon
  have ht : FileUtils.isReservedStem m = true := by
    simpa using hcon
  have hmem := reserved_mem_of_stem m ht
  have hprops := reserved_props _ hmem
  apply hprops.2.2
  rw [toList_mk, List.getLast?_map, h]
  rfl

theorem reserved_stem_len_le (w : List Char) (hres : FileUtils.isReservedStem w = true) :
    (pySplitExt w).1.length ≤ 4 := by
  have hmem := reserved_mem_of_stem w hres
  have hprops := reserved_props _ hmem
  have := hprops.1
  rw [toList_mk, List.length_map] at this
  exact this

theorem reserved_trunc_contra (w : List Char) (hres : FileUtils.isReservedStem w = true)
    (hlen : 255 < ('_' :: w).length)
    (hmax : (0 : Int) < 255 - ((pySplitExt ('_' :: w)).2.length : Int) - 10) : False := by
  rcases dot_decomp w with hnd | hdd
  · have hsplit := pySplitExt_nodot w hnd
    have hlen4 : w.length ≤ 4 := by
      have := reserved_stem_len_le w hres
      rw [hsplit] at this
      exact this
    simp only [List.length_cons] at hlen
    omega
  · obtain ⟨sw, ew, rfl, hewd⟩ := hdd
    by_cases hsw : sw = []
    · subst hsw
      have hsplit : pySplitExt ([] ++ '.' :: ew) = ('.' :: ew, []) := by
        simpa using pySplitExt_head_dot ew hewd
      have hmem := reserved_mem_of_stem _ hres
      rw [hsplit] at hmem
      have hprops := reserved_props _ hmem
      exact hprops.2.1 (by rw [toList_mk]; rfl)
    · by_cases hew : ew = []
      · subst hew
        have hsplit : pySplitExt (sw ++ '.' :: []) = (sw ++ ['.'], []) := by
          simpa using pySplitExt_trailing_dot sw
        have hmem := reserved_mem_of_stem _ hres
        rw [hsplit] at hmem
        have hprops := reserved_props _ hmem
        apply hprops.2.2
        rw [toList_mk, List.getLast?_map]
        rw [List.getLast?_concat]
        rfl
      · have hsplitw := pySplitExt_eq_split sw ew hewd hsw hew
        have hsw4 : sw.length ≤ 4 := by
          have := reserved_stem_len_le _ hres
          rw [hsplitw] at this
          exact this
        have hsplitg : pySplitExt ('_' :: (sw ++ '.' :: ew)) = ('_' :: sw, '.' :: ew) := by
          have heq : ('_' :: (sw ++ '.' :: ew)) = ('_' :: sw) ++ '.' :: ew := by simp
          rw [heq]
          exact pySplitExt_eq_split _ ew hewd (by simp) hew
        rw [hsplitg] at hmax
        simp only [List.length_cons, List.length_append] at hmax hlen
        omega

theorem chain_of_all_false (p : Char → Bool) (t : List Char) (h : ∀ c ∈ t, p c = false) :
    List.Chain' (fun a b => ¬(p a = true ∧ p b = true)) t := by
  induction t with
  | nil => simp
  | cons c cs ih =>
    rw [List.chain'_cons']
    refine ⟨?_, ih (fun d hd => h d (by simp [hd]))⟩
    rintro y _ ⟨h1, _⟩
    have := h c (by simp)
    rw [this] at h1
    cases h1

theorem trunc_ws : ∀ c ∈ "truncated".toList, FileUtils.isPySpace c = false := by decide

theorem trunc_inv : ∀ c ∈ "truncated".toList, FileUtils.isInvalidChar c = false := by decide

theorem trunc_und : ∀ c ∈ "truncated".toList, FileUtils.isUnd c = false := by decide

theorem dots3_getLast (e : List Char) (he : e ≠ []) :
    ('.' :: '.' :: '.' :: e).getLast? = e.getLast? := by
  rw [cons_getLast_of_ne_nil _ _ (by simp), cons_getLast_of_ne_nil _ _ (by simp),
    cons_getLast_of_ne_nil _ _ he]

theorem sanOut_trunc_pos (gg : List Char)
    (hgw : ∀ c ∈ gg, FileUtils.isPySpace c = true → c = ' ')
    (hgchW : List.Chain'
      (fun a b => ¬(FileUtils.isPySpace a = true ∧ FileUtils.isPySpace b = true)) gg)
    (hginv : ∀ c ∈ gg, FileUtils.isInvalidChar c = false)
    (hgchU : List.Chain'
      (fun a b => ¬(FileUtils.isUnd a = true ∧ FileUtils.isUnd b = true)) gg)
    (hghead : gg.head? ≠ some ' ')
    (hglastS : gg.getLast? ≠ some ' ')
    (hglastU : gg.getLast? ≠ some '_')
    (hgres : (∃ w, gg = '_' :: w ∧ w.head? ≠ some '_' ∧ w.head? ≠ some ' ' ∧
        FileUtils.isReservedStem w = true) ∨
      (gg.head? ≠ some '_' ∧ FileUtils.isReservedStem gg = false))
    (hlen : 255 < gg.length)
    (hmax : (0 : Int) < 255 - ((pySplitExt gg).2.length : Int) - 10) :
    SanOut (FileUtils.lengthFix gg) := by
  have hshape := pySplitExt_snd_shape gg
  have happ := pySplitExt_append gg
  have hlenadd := pySplitExt_length gg
  have hout : FileUtils.lengthFix gg =
      (pySplitExt gg).1.take ((255 : Int) - ((pySplitExt gg).2.length : Int) - 10).toNat ++
        ('.' :: '.' :: '.' :: (pySplitExt gg).2) := by
    unfold FileUtils.lengthFix
    rw [if_pos hlen, if_pos hmax]
  generalize hnm : (pySplitExt gg).1 = nm at hout happ hlenadd
  generalize hext : (pySplitExt gg).2 = ext at hout happ hlenadd hshape hmax
  have hextlt : ext.length < 245 := by omega
  have hk1 : 0 < ((255 : Int) - (ext.length : Int) - 10).toNat := by omega
  have hname_ne : nm ≠ [] := by
    intro he
    rw [he] at hlenadd
    simp only [List.length_nil, Nat.zero_add] at hlenadd
    omega
  have htake_ne : nm.take ((255 : Int) - (ext.length : Int) - 10).toNat ≠ [] :=
    take_ne_nil_of_pos _ _ hk1 hname_ne
  have hmemtake : ∀ c ∈ nm.take ((255 : Int) - (ext.length : Int) - 10).toNat, c ∈ gg := by
    intro c hc
    rw [← happ]
    exact List.mem_append_left _ ((List.take_sublist _ _).subset hc)
  have hmemext : ∀ c ∈ ext, c ∈ gg := by
    intro c hc
    rw [← happ]
    exact List.mem_append_right _ hc
  have hchW2 : List.Chain'
      (fun a b => ¬(FileUtils.isPySpace a = true ∧ FileUtils.isPySpace b = true))
      (nm ++ ext) := by
    rw [happ]
    exact hgchW
  obtain ⟨hchWnm, hchWext, _⟩ := List.chain'_append.mp hchW2
  have hchU2 : List.Chain'
      (fun a b => ¬(FileUtils.isUnd a = true ∧ FileUtils.isUnd b = true))
      (nm ++ ext) := by
    rw [happ]
    exact hgchU
  obtain ⟨hchUnm, hchUext, _⟩ := List.chain'_append.mp hchU2
  have hchWtake : List.Chain'
      (fun a b => ¬(FileUtils.isPySpace a = true ∧ FileUtils.isPySpace b = true))
      (nm.take ((255 : Int) - (ext.length : Int) - 10).toNat) := by
    have h2 : List.Chain'
        (fun a b => ¬(FileUtils.isPySpace a = true ∧ FileUtils.isPySpace b = true))
        (nm.take ((255 : Int) - (ext.length : Int) - 10).toNat ++
          nm.drop ((255 : Int) - (ext.length : Int) - 10).toNat) := by
      rw [List.take_append_drop]
      exact hchWnm
    exact (List.chain'_append.mp h2).1
  have hchUtake : List.Chain'
      (fun a b => ¬(FileUtils.isUnd a = true ∧ FileUtils.isUnd b = true))
      (nm.take ((255 : Int) - (ext.length : Int) - 10).toNat) := by
    have h2 : List.Chain'
        (fun a b => ¬(FileUtils.isUnd a = true ∧ FileUtils.isUnd b = true))
        (nm.take ((255 : Int) - (ext.length : Int) - 10).toNat ++
          nm.drop ((255 : Int) - (ext.length : Int) - 10).toNat) := by
      rw [List.take_append_drop]
      exact hchUnm
    exact (List.chain'_append.mp h2).1
  have hheadout : (FileUtils.lengthFix gg).head? = gg.head? := by
    rw [hout, head_append_of_ne_nil _ _ htake_ne, take_head_of_pos _ _ hk1, ← happ,
      head_append_of_ne_nil _ _ hname_ne]
  have hlastout : (FileUtils.lengthFix gg).getLast? = gg.getLast? ∨
      (FileUtils.lengthFix gg).getLast? = some '.' := by
    by_cases hextnil : ext = []
    · right
      rw [hout, hextnil, getLast_append_of_ne_nil _ _ (by simp)]
      rfl
    · left
      rw [hout, getLast_append_of_ne_nil _ _ (by simp), dots3_getLast ext hextnil, ← happ,
        getLast_append_of_ne_nil _ _ hextnil]
  refine ⟨?_, ?_, ?_, ?_, ?_, ?_, ?_, ?_, lengthFix_idem gg⟩
  · intro c hc hw
    rw [hout] at hc
    rcases List.mem_append.mp hc with h | h
    · exact hgw c (hmemtake c h) hw
    · rcases List.mem_cons.mp h with h2 | h2
      · rw [h2] at hw
        exact absurd hw (by decide)
      · rcases List.mem_cons.mp h2 with h3 | h3
        · rw [h3] at hw
          exact absurd hw (by decide)
        · rcases List.mem_cons.mp h3 with h4 | h4
          · rw [h4] at hw
            exact absurd hw (by decide)
          · exact hgw c (hmemext c h4) hw
  · rw [hout]
    rw [List.chain'_append]
    refine ⟨hchWtake, ?_, ?_⟩
    · rw [List.chain'_cons']
      refine ⟨by rintro y _ ⟨h1, _⟩; exact absurd h1 (by decide), ?_⟩
      rw [List.chain'_cons']
      refine ⟨by rintro y _ ⟨h1, _⟩; exact absurd h1 (by decide), ?_⟩
      rw [List.chain'_cons']
      exact ⟨by rintro y _ ⟨h1, _⟩; exact absurd h1 (by decide), hchWext⟩
    · rintro x _ y hy ⟨_, h2⟩
      simp only [List.head?_cons, Option.mem_def, Option.some_inj] at hy
      rw [← hy] at h2
      exact absurd h2 (by decide)
  · intro c hc
    rw [hout] at hc
    rcases List.mem_append.mp hc with h | h
    · exact hginv c (hmemtake c h)
    · rcases List.mem_cons.mp h with h2 | h2
      · rw [h2]; decide
      · rcases List.mem_cons.mp h2 with h3 | h3
        · rw [h3]; decide
        · rcases List.mem_cons.mp h3 with h4 | h4
          · rw [h4]; decide
          · exact hginv c (hmemext c h4)
  · rw [hout]
    rw [List.chain'_append]
    refine ⟨hchUtake, ?_, ?_⟩
    · rw [List.chain'_cons']
      refine ⟨by rintro y _ ⟨h1, _⟩; exact absurd h1 (by decide), ?_⟩
      rw [List.chain'_cons']
      refine ⟨by rintro y _ ⟨h1, _⟩; exact absurd h1 (by decide), ?_⟩
      rw [List.chain'_cons']
      exact ⟨by rintro y _ ⟨h1, _⟩; exact absurd h1 (by decide), hchUext⟩
    · rintro x _ y hy ⟨_, h2⟩
      simp only [List.head?_cons, Option.mem_def, Option.some_inj] at hy
      rw [← hy] at h2
      exact absurd h2 (by decide)
  · rw [hheadout]
    exact hghead
  · rcases hlastout with h | h
    · rw [h]; exact hglastS
    · rw [h]; simp
  · rcases hlastout with h | h
    · rw [h]; exact hglastU
    · rw [h]; simp
  · right
    constructor
    · rw [hheadout]
      rcases hgres with ⟨w, hgw', hw1, hw2, hwres⟩ | ⟨hh, _⟩
      · exfalso
        refine reserved_trunc_contra w hwres (by rw [← hgw']; exact hlen) ?_
        rw [← hgw', hext]
        exact hmax
      · exact hh
    · apply not_reserved_of_stem_last_dot
      rcases hshape with hextnil | ⟨mid, hmid, hmdot, hmne⟩
      · have hm2 : nm.take ((255 : Int) - (ext.length : Int) - 10).toNat ++
            ('.' :: '.' :: '.' :: ext) =
            (nm.take ((255 : Int) - (ext.length : Int) - 10).toNat ++ ['.', '.']) ++ ['.'] := by
          rw [hextnil]
          simp
        rw [hout, hm2, pySplitExt_trailing_dot]
        rw [List.getLast?_concat]
      · have hm2 : nm.take ((255 : Int) - (ext.length : Int) - 10).toNat ++
            ('.' :: '.' :: '.' :: ext) =
            (nm.take ((255 : Int) - (ext.length : Int) - 10).toNat ++ ['.', '.', '.']) ++
              '.' :: mid := by
          rw [hmid]
          simp
        rw [hout, hm2, pySplitExt_eq_split _ mid hmdot (by simp) hmne]
        have hm3 : nm.take ((255 : Int) - (ext.length : Int) - 10).toNat ++ ['.', '.', '.'] =
            (nm.take ((255 : Int) - (ext.length : Int) - 10).toNat ++ ['.', '.']) ++ ['.'] := by
          simp
        rw [hm3, List.getLast?_concat]

theorem sanOut_trunc_neg (gg : List Char)
    (hgw : ∀ c ∈ gg, FileUtils.isPySpace c = true → c = ' ')
    (hgchW : List.Chain'
      (fun a b => ¬(FileUtils.isPySpace a = true ∧ FileUtils.isPySpace b = true)) gg)
    (hginv : ∀ c ∈ gg, FileUtils.isInvalidChar c = false)
    (hgchU : List.Chain'
      (fun a b => ¬(FileUtils.isUnd a = true ∧ FileUtils.isUnd b = true)) gg)
    (hglastS : gg.getLast? ≠ some ' ')
    (hglastU : gg.getLast? ≠ some '_')
    (hlen : 255 < gg.length)
    (hmax : ¬ (0 : Int) < 255 - ((pySplitExt gg).2.length : Int) - 10) :
    SanOut (FileUtils.lengthFix gg) := by
  have hshape := pySplitExt_snd_shape gg
  have happ := pySplitExt_append gg
  have hout : FileUtils.lengthFix gg = "truncated".toList ++ (pySplitExt gg).2 := by
    unfold FileUtils.lengthFix
    rw [if_pos hlen, if_neg hmax]
  generalize hext : (pySplitExt gg).2 = ext at hout happ hshape hmax
  have hextge : 245 ≤ ext.length := by omega
  have hmid_pack : ∃ mid, ext = '.' :: mid ∧ ('.' : Char) ∉ mid ∧ mid ≠ [] := by
    rcases hshape with h0 | hsh
    · rw [h0] at hextge
      simp at hextge
    · exact hsh
  obtain ⟨mid, hmid, hmdot, hmne⟩ := hmid_pack
  have hextne : ext ≠ [] := by
    rw [hmid]
    simp
  have hmemext : ∀ c ∈ ext, c ∈ gg := by
    intro c hc
    rw [← happ]
    exact List.mem_append_right _ hc
  have hchW2 : List.Chain'
      (fun a b => ¬(FileUtils.isPySpace a = true ∧ FileUtils.isPySpace b = true))
      ((pySplitExt gg).1 ++ ext) := by
    rw [happ]
    exact hgchW
  have hchWext := (List.chain'_append.mp hchW2).2.1
  have hchU2 : List.Chain'
      (fun a b => ¬(FileUtils.isUnd a = true ∧ FileUtils.isUnd b = true))
      ((pySplitExt gg).1 ++ ext) := by
    rw [happ]
    exact hgchU
  have hchUext := (List.chain'_append.mp hchU2).2.1
  have hlastout : (FileUtils.lengthFix gg).getLast? = gg.getLast? := by
    rw [hout, getLast_append_of_ne_nil _ _ hextne, ← happ,
      getLast_append_of_ne_nil _ _ hextne]
  have hsplitm : pySplitExt ("truncated".toList ++ ext) = ("truncated".toList, ext) := by
    rw [hmid]
    exact pySplitExt_eq_split _ mid hmdot (by decide) hmne
  refine ⟨?_, ?_, ?_, ?_, ?_, ?_, ?_, ?_, lengthFix_idem gg⟩
  · intro c hc hw
    rw [hout] at hc
    rcases List.mem_append.mp hc with h | h
    · rw [trunc_ws c h] at hw
      cases hw
    · exact hgw c (hmemext c h) hw
  · rw [hout, List.chain'_append]
    refine ⟨chain_of_all_false _ _ trunc_ws, hchWext, ?_⟩
    rintro x hx y _ ⟨h1, _⟩
    have hgl : "truncated".toList.getLast? = some 'd' := by decide
    rw [hgl] at hx
    simp only [Option.mem_def, Option.some_inj] at hx
    subst hx
    exact absurd h1 (by decide)
  · intro c hc
    rw [hout] at hc
    rcases List.mem_append.mp hc with h | h
    · exact trunc_inv c h
    · exact hginv c (hmemext c h)
  · rw [hout, List.chain'_append]
    refine ⟨chain_of_all_false _ _ trunc_und, hchUext, ?_⟩
    rintro x hx y _ ⟨h1, _⟩
    have hgl : "truncated".toList.getLast? = some 'd' := by decide
    rw [hgl] at hx
    simp only [Option.mem_def, Option.some_inj] at hx
    subst hx
    exact absurd h1 (by decide)
  · rw [hout, head_append_of_ne_nil _ _ (by decide)]
    decide
  · rw [hlastout]
    exact hglastS
  · rw [hlastout]
    exact hglastU
  · right
    constructor
    · rw [hout, head_append_of_ne_nil _ _ (by decide)]
      decide
    · rw [hout]
      unfold FileUtils.isReservedStem
      rw [hsplitm]
      dsimp only
      decide

/-- Every output of the `sanitizeSteps` pipeline satisfies the `SanOut`
invariants. -/
theorem sanitizeSteps_sanOut (l : List Char) : SanOut (FileUtils.sanitizeSteps l) := by
  rw [sanitizeSteps_eq]
  obtain ⟨hgw, hgchW, hginv, hgchU, hghead, hglastS, hglastU, hgres⟩ := stageG_props l
  generalize hG : FileUtils.reservedFix (FileUtils.sanStageF l) = gg at *
  by_cases hlen : 255 < gg.length
  · by_cases hmax : (0 : Int) < 255 - ((pySplitExt gg).2.length : Int) - 10
    · exact sanOut_trunc_pos gg hgw hgchW hginv hgchU hghead hglastS hglastU hgres hlen hmax
    · exact sanOut_trunc_neg gg hgw hgchW hginv hgchU hglastS hglastU hlen hmax
  · have hfix : FileUtils.lengthFix gg = gg := lengthFix_of_le gg (by omega)
    rw [hfix]
    exact ⟨hgw, hgchW, hginv, hgchU, hghead, hglastS, hglastU, hgres, by rw [hfix]⟩

/-- A list satisfying the `SanOut` invariants that neither starts nor ends
with a period is a fixed point of the sanitisation pipeline. -/
theorem sanitizeSteps_fixed (m : List Char) (hs : SanOut m)
    (hhead : m.head? ≠ some '.') (hlast : m.getLast? ≠ some '.') :
    FileUtils.sanitizeSteps m = m := by
  have hA : FileUtils.ctrlToSpace m = m := by
    apply mapFixed
    intro c hc
    by_cases hctrl : FileUtils.isCtrlWs c = true
    · have hws := ctrl_subset_ws c hctrl
      have hsp := hs.onlyWs c hc hws
      rw [hsp] at hctrl
      exact absurd hctrl (by decide)
    · rw [if_neg hctrl]
  have hB : FileUtils.collapseRuns FileUtils.isPySpace ' ' m = m :=
    (collapseAux_fixed FileUtils.isPySpace ' ' m (fun c hc hp => hs.onlyWs c hc hp)
      hs.chainWs).1
  have hC : FileUtils.stripEnds FileUtils.isDotSpace m = m := by
    apply stripEnds_fixed
    · intro c hc
      rw [isDotSpace_false_iff]
      exact ⟨fun he => hs.headSpace (he ▸ hc), fun he => hhead (he ▸ hc)⟩
    · intro c hc
      rw [isDotSpace_false_iff]
      exact ⟨fun he => hs.lastSpace (he ▸ hc), fun he => hlast (he ▸ hc)⟩
  have hD : FileUtils.invalidToUnd m = m := by
    apply mapFixed
    intro c hc
    rw [if_neg (by simp [hs.noInvalid c hc])]
  have hE : FileUtils.collapseRuns FileUtils.isUnd '_' m = m :=
    (collapseAux_fixed FileUtils.isUnd '_' m (fun c _ hp => isUnd_eq c hp) hs.chainUnd).1
  have hFG : FileUtils.reservedFix (FileUtils.stripEnds FileUtils.isUndSpace m) = m := by
    rcases hs.reservedCase with ⟨w, hm, hw1, hw2, hwres⟩ | ⟨hh, hres⟩
    · have hwne : w ≠ [] := by
        intro he
        rw [he] at hwres
        exact absurd hwres (by simp [isReservedStem_nil])
    
      have hlastw : ('_' :: w).getLast? = w.getLast? := cons_getLast_of_ne_nil '_' w hwne
      have hstrip : FileUtils.stripEnds FileUtils.isUndSpace m = w := by
        rw [hm]
        have h1 : List.dropWhile FileUtils.isUndSpace ('_' :: w) = w := by
          rw [List.dropWhile_cons, if_pos (by decide)]
          apply dropWhile_fixedL
          intro c hc
          rw [isUndSpace_false_iff]
          exact ⟨fun he => hw1 (he ▸ hc), fun he => hw2 (he ▸ hc)⟩
        unfold FileUtils.stripEnds
        rw [h1]
        rw [dropWhile_fixedL FileUtils.isUndSpace w.reverse ?_, List.reverse_reverse]
        intro c hc
        rw [List.head?_reverse] at hc
        rw [isUndSpace_false_iff]
        constructor
        · intro he
          apply hs.lastUnd
          rw [hm, hlastw, hc, he]
        · intro he
          apply hs.lastSpace
          rw [hm, hlastw, hc, he]
      rw [hstrip]
      unfold FileUtils.reservedFix
      rw [if_pos hwres, ← hm]
    · have hstrip : FileUtils.stripEnds FileUtils.isUndSpace m = m := by
        apply stripEnds_fixed
        · intro c hc
          rw [isUndSpace_false_iff]
          exact ⟨fun he => hh (he ▸ hc), fun he => hs.headSpace (he ▸ hc)⟩
        · intro c hc
          rw [isUndSpace_false_iff]
          exact ⟨fun he => hs.lastUnd (he ▸ hc), fun he => hs.lastSpace (he ▸ hc)⟩
      rw [hstrip]
      unfold FileUtils.reservedFix
      rw [if_neg (by simp [hres])]
  rw [sanitizeSteps_eq]
  unfold FileUtils.sanStageF
  rw [hA, hB, hC, hD, hE, hFG, hs.lenFixed]

theorem sanitize_cases (nf : String → String) (x : String) :
    FileUtils.sanitize_filename nf x = "untitled" ∨
      (∃ m, FileUtils.sanitize_filename nf x = String.mk m ∧
        m = FileUtils.sanitizeSteps (nf x).toList ∧ m ≠ [] ∧ m ≠ ['_']) := by
  unfold FileUtils.sanitize_filename
  by_cases hx : x = ""
  · rw [if_pos hx]
    left
    rfl
  · rw [if_neg hx]
    dsimp only
    by_cases hl : FileUtils.sanitizeSteps (nf x).toList = [] ∨
        FileUtils.sanitizeSteps (nf x).toList = ['_']
    · rw [if_pos hl]
      left
      rfl
    · rw [if_neg hl]
      right
      push_neg at hl
      exact ⟨FileUtils.sanitizeSteps (nf x).toList, rfl, rfl, hl.1, hl.2⟩

theorem sanitize_untitled_fixed (nf : String → String) (h : nf "untitled" = "untitled") :
    FileUtils.sanitize_filename nf "untitled" = "untitled" := by
  unfold FileUtils.sanitize_filename
  rw [if_neg (by decide)]
  dsimp only
  rw [h]
  have hsteps : FileUtils.sanitizeSteps ("untitled" : String).toList =
      ("untitled" : String).toList := by decide
  rw [hsteps]
  rw [if_neg (by decide)]
  decide

/-- C4 (corrected): `sanitize_filename` with its default arguments is *not*
idempotent: sanitising `"a._"` yields `"a."` (the trailing `'_'` is stripped
last, exposing a period that the first pass no longer removes), and a second
pass strips that period, yielding `"a"`.  (NFKC is instantiated with `id`,
which is exact on these ASCII inputs.) -/
theorem C4_counterexample :
    FileUtils.sanitize_filename id "a._" = "a." ∧
      FileUtils.sanitize_filename id (FileUtils.sanitize_filename id "a._") = "a" ∧
      ("a" : String) ≠ "a." := by
  refine ⟨by decide, by decide, by decide⟩

/-- C4 (amended): the sanitisation pipeline is idempotent on every input
whose first-pass result neither starts nor ends with a period (and which the
NFKC step fixes): `sanitize(sanitize(x)) = sanitize(x)` then holds for all
strings, including empty, all-invalid and over-length inputs.  Outputs with
a leading or trailing period — produced e.g. by `"a._"` or by the
extension-less truncation ellipsis — are the precise exception. -/
theorem C4_sanitize_idempotent (nf : String → String) (x : String)
    (hnf : nf (FileUtils.sanitize_filename nf x) = FileUtils.sanitize_filename nf x)
    (hhead : (FileUtils.sanitize_filename nf x).toList.head? ≠ some '.')
    (hlast : (FileUtils.sanitize_filename nf x).toList.getLast? ≠ some '.') :
    FileUtils.sanitize_filename nf (FileUtils.sanitize_filename nf x) =
      FileUtils.sanitize_filename nf x := by
  rcases sanitize_cases nf x with h | ⟨m, hy, hm, hne, hnu⟩
  · rw [h] at hnf ⊢
    exact sanitize_untitled_fixed nf hnf
  · rw [hy] at hnf hhead hlast ⊢
    have htl : (String.mk m).toList = m := rfl
    rw [htl] at hhead hlast
    have hsan : SanOut m := hm ▸ sanitizeSteps_sanOut (nf x).toList
    have hfix := sanitizeSteps_fixed m hsan hhead hlast
    unfold FileUtils.sanitize_filename
    rw [if_neg (fun he => hne (by simpa using congrArg String.toList he))]
    dsimp only
    rw [hnf, htl, hfix]
    rw [if_neg (by push_neg; exact ⟨hne, hnu⟩)]

/-- Witness for C4 at a concrete input whose sanitised form has no
leading/trailing period. -/
theorem C4_sanitize_idempotent_witness :
    FileUtils.sanitize_filename id (FileUtils.sanitize_filename id "Chapter 1") =
      FileUtils.sanitize_filename id "Chapter 1" :=
  C4_sanitize_idempotent id "Chapter 1" rfl (by decide) (by decide)

end CalibreSplitter
